import Mathlib

/-!
Shallow embedding of the BPE tokenizer in `src/token_working_code.py`
(the live class at the bottom of the file; the commented-out drafts above
it are dead code).  Strings are modelled as `List Char`; Python dicts as
insertion-ordered association lists with dict assignment semantics
(update-in-place keeps the position, fresh keys append at the end).
-/

namespace Tok

abbrev Str := List Char

/-- Python `str.isspace` / regex `\s`, restricted to the ASCII whitespace
characters (the only ones exercised here). -/
def pyIsSpace (c : Char) : Bool :=
  c = ' ' || c = '\t' || c = '\n' || c = '\r' || c = Char.ofNat 11 || c = Char.ofNat 12

/-- Regex `\d` (ASCII digits). -/
def pyIsDigit (c : Char) : Bool :=
  '0' ≤ c && c ≤ '9'

/-- Length of the regex match `https?://\S+|www\.\S+` anchored at the head of
the list, if any (first alternative tried first; `\S+` is greedy). -/
def urlMatchLen (l : Str) : Option Nat :=
  let tryHttp : Option Nat :=
    if l.take 4 = "http".data then
      let rest := l.drop 4
      let sLen : Nat := if rest.take 1 = ['s'] then 1 else 0
      let rest2 := rest.drop sLen
      if rest2.take 3 = "://".data then
        let body := (rest2.drop 3).takeWhile (fun c => !pyIsSpace c)
        if body.length > 0 then some (4 + sLen + 3 + body.length) else none
      else none
    else none
  match tryHttp with
  | some n => some n
  | none =>
    if l.take 4 = "www.".data then
      let body := (l.drop 4).takeWhile (fun c => !pyIsSpace c)
      if body.length > 0 then some (4 + body.length) else none
    else none

/-- `re.sub(r"https?://\S+|www\.\S+", "", text)`: scan left to right, drop
matches, keep other characters.  Fuel-driven; the fuel `l.length` is always
sufficient because every match has positive length. -/
def stripURLsF : Nat → Str → Str
  | 0, l => l
  | _ + 1, [] => []
  | fuel + 1, c :: cs =>
    match urlMatchLen (c :: cs) with
    | some n => stripURLsF fuel ((c :: cs).drop n)
    | none => c :: stripURLsF fuel cs

def stripURLs (l : Str) : Str := stripURLsF l.length l

/-- `re.sub(r'\d+', '', text)` deletes exactly the digit characters. -/
def stripDigits (l : Str) : Str := l.filter (fun c => !pyIsDigit c)

/-- `re.sub(r"\s+", " ", text)`: every maximal whitespace run becomes a
single `' '`. -/
def collapseWs : Str → Str
  | [] => []
  | [c] => if pyIsSpace c then [' '] else [c]
  | c :: c2 :: cs =>
    if pyIsSpace c then
      if pyIsSpace c2 then collapseWs (c2 :: cs)
      else ' ' :: collapseWs (c2 :: cs)
    else c :: collapseWs (c2 :: cs)

/-- Python `str.strip()`. -/
def pyStrip (l : Str) : Str :=
  ((l.dropWhile pyIsSpace).reverse.dropWhile pyIsSpace).reverse

/-- `Tokenizer._process_clean`. -/
def processClean (text : Str) : Str :=
  pyStrip (collapseWs (stripDigits (stripURLs text)))

/-- Python `str.split()` (split on whitespace runs, no empty words):
`acc` is the current word, reversed. -/
def pySplitAux : Str → Str → List Str
  | [], acc => if acc = [] then [] else [acc.reverse]
  | c :: cs, acc =>
    if pyIsSpace c then
      if acc = [] then pySplitAux cs [] else acc.reverse :: pySplitAux cs []
    else pySplitAux cs (c :: acc)

def pySplit (l : Str) : List Str := pySplitAux l []

/-! ### Association lists with Python-dict semantics -/

/-- First-match lookup (dicts have unique keys, so any match is the value). -/
def lookupA {α β : Type} [DecidableEq α] : List (α × β) → α → Option β
  | [], _ => none
  | (k, v) :: rest, key => if key = k then some v else lookupA rest key

def containsA {α β : Type} [DecidableEq α] (l : List (α × β)) (k : α) : Bool :=
  (lookupA l k).isSome

/-- `d[k] = v`: update in place when present, append when fresh. -/
def dictSet {α β : Type} [DecidableEq α] : List (α × β) → α → β → List (α × β)
  | [], k, v => [(k, v)]
  | (k', v') :: rest, k, v =>
    if k = k' then (k, v) :: rest else (k', v') :: dictSet rest k v

/-- `defaultdict(int)`-style `d[k] += n`. -/
def bump {α : Type} [DecidableEq α] (st : List (α × Nat)) (k : α) (n : Nat) :
    List (α × Nat) :=
  match lookupA st k with
  | some c => dictSet st k (c + n)
  | none => st ++ [(k, n)]

/-! ### Tokenizer state -/

def endoftextS : Str := "<|endoftext|>".data
def paddingS : Str := "<|padding|>".data
def startoftextS : Str := "<|startoftext|>".data
def unkS : Str := "<|unk|>".data
def maskS : Str := "<|mask|>".data
def endWord : Str := "</w>".data

/-- `Tokenizer.special_tokens` with the ids from the source (note that
`<|endoftext|>` and `<|padding|>` share id 2 there). -/
def specialTokens : List (Str × Nat) :=
  [(endoftextS, 2), (paddingS, 2), (startoftextS, 1), (unkS, 4), (maskS, 5)]

/-- `self.special_tokens[s]` for the literal keys used by the source. -/
def specialId (s : Str) : Nat := (lookupA specialTokens s).getD 0

abbrev Pair := Str × Str

structure Tokenizer where
  vocab_size : Nat
  min_frequency : Nat
  vocab : List (Str × Nat)
  merges : List Pair
  pair_ranks : List (Pair × Nat)
  next_token_id : Nat
deriving DecidableEq

def listMaxNat (l : List Nat) : Nat := l.foldl max 0

/-- `Tokenizer.__init__` (directory creation is I/O glue and not modelled). -/
def Tokenizer.init (vs mf : Nat) : Tokenizer :=
  { vocab_size := vs, min_frequency := mf, vocab := [], merges := [],
    pair_ranks := [],
    next_token_id := listMaxNat (specialTokens.map (·.2)) + 1 }

/-- `sorted(set(text))`: distinct characters in code-point order. -/
def insertChar (c : Char) : List Char → List Char
  | [] => [c]
  | d :: ds =>
    if c.val < d.val then c :: d :: ds
    else if c.val = d.val then d :: ds
    else d :: insertChar c ds

def sortedSet (l : Str) : List Char := l.foldr insertChar []

/-- One iteration of the character loop in `Tokenizer._initialize_vocab`:
`if ch.strip() and ch not in self.vocab`. -/
def addCorpusChar (t : Tokenizer) (c : Char) : Tokenizer :=
  if !pyIsSpace c && !containsA t.vocab [c] then
    { t with
      vocab := t.vocab ++ [([c], t.next_token_id)],
      next_token_id := t.next_token_id + 1 }
  else t

/-- `Tokenizer._initialize_vocab`. -/
def initializeVocab (tk : Tokenizer) (text : Str) : Tokenizer :=
  let tk1 :=
    { tk with vocab := specialTokens.foldl (fun v p => dictSet v p.1 p.2) tk.vocab }
  let tk2 :=
    if containsA tk1.vocab endWord then tk1
    else
      { tk1 with
        vocab := tk1.vocab ++ [(endWord, tk1.next_token_id)],
        next_token_id := tk1.next_token_id + 1 }
  (sortedSet text).foldl addCorpusChar tk2

/-! ### BPE helpers -/

/-- Inner loop of `Tokenizer._get_stats` for one word. -/
def statsOfWord (freq : Nat) : List Str → List (Pair × Nat) → List (Pair × Nat)
  | a :: b :: rest, st =>
    let st' := if a = endWord ∨ b = endWord then st else bump st (a, b) freq
    statsOfWord freq (b :: rest) st'
  | _, st => st

/-- `Tokenizer._get_stats`. -/
def getStats (words : List (List Str × Nat)) : List (Pair × Nat) :=
  words.foldl (fun st wf => statsOfWord wf.2 wf.1 st) []

/-- `max(pairs.items(), key=lambda x: x[1])`: Python's `max` keeps the first
maximal item in iteration order. -/
def maxByVal : List (Pair × Nat) → Option (Pair × Nat)
  | [] => none
  | x :: xs => some (xs.foldl (fun b y => if b.2 < y.2 then y else b) x)

/-- One word of `Tokenizer._merge_vocab`: replace non-overlapping
left-to-right occurrences of the pair by its concatenation. -/
def mergeWord (a b : Str) : List Str → List Str
  | x :: y :: rest =>
    if x = a ∧ y = b then (a ++ b) :: mergeWord a b rest
    else x :: mergeWord a b (y :: rest)
  | xs => xs

/-- `Tokenizer._merge_vocab` (the merged symbol it also returns is just
`a ++ b` and is recomputed at the call site). -/
def mergeAll (p : Pair) (words : List (List Str × Nat)) : List (List Str × Nat) :=
  words.map (fun wf => (mergeWord p.1 p.2 wf.1, wf.2))

/-! ### Training -/

/-- The `while` loop of `Tokenizer.train`.  Fuel-driven; each productive
iteration removes at least one symbol occurrence, so the fuel chosen by
`train` is never exhausted. -/
def trainLoop : Nat → Tokenizer → List (List Str × Nat) → Tokenizer
  | 0, tk, _ => tk
  | fuel + 1, tk, vw =>
    if tk.vocab.length < tk.vocab_size then
      match maxByVal (getStats vw) with
      | none => tk
      | some (bp, bf) =>
        if bf < tk.min_frequency then tk
        else
          let vw' := mergeAll bp vw
          let merged := bp.1 ++ bp.2
          let tk1 :=
            if containsA tk.vocab merged then tk
            else
              { tk with
                vocab := tk.vocab ++ [(merged, tk.next_token_id)],
                next_token_id := tk.next_token_id + 1 }
          trainLoop fuel
            { tk1 with
              merges := tk1.merges ++ [bp],
              pair_ranks := dictSet tk1.pair_ranks bp tk1.merges.length }
            vw'
    else tk

/-- Word-frequency table of `Tokenizer.train`: each word becomes its list of
one-character symbols plus the end-of-word marker, keyed in first-occurrence
order. -/
def buildWordFreqs (words : List Str) : List (List Str × Nat) :=
  words.foldl (fun wf w => bump wf (w.map (fun c => [c]) ++ [endWord]) 1) []

def totalSyms (vw : List (List Str × Nat)) : Nat :=
  (vw.map (fun wf => wf.1.length)).sum

/-- `Tokenizer.train` (the local `cleaned` variable of the source is
inlined; `_process_clean` is pure). -/
def train (tk : Tokenizer) (text : Str) : Tokenizer :=
  if text = [] then tk
  else if processClean text = [] then tk
  else
    trainLoop (totalSyms (buildWordFreqs (pySplit (processClean text))) + 1)
      (initializeVocab tk (processClean text))
      (buildWordFreqs (pySplit (processClean text)))

/-! ### Per-word tokenization at encode time -/

/-- Adjacent symbol pairs of a token sequence, in position order. -/
def adjPairs : List Str → List Pair
  | a :: b :: rest => (a, b) :: adjPairs (b :: rest)
  | _ => []

/-- `ranked = [(rank, i, p) for i, p in enumerate(pairs) if p in pair_ranks]`. -/
def rankedList (ranks : List (Pair × Nat)) (tokens : List Str) :
    List (Nat × Nat × Pair) :=
  (adjPairs tokens).enum.filterMap fun ip =>
    match lookupA ranks ip.2 with
    | some r => some (r, ip.1, ip.2)
    | none => none

/-- `min(ranked, key=lambda x: x[0])`: Python's `min` keeps the first
minimal item. -/
def minByRank : List (Nat × Nat × Pair) → Option (Nat × Nat × Pair)
  | [] => none
  | x :: xs => some (xs.foldl (fun b y => if y.1 < b.1 then y else b) x)

/-- The `while True` loop of `Tokenizer._tokenize_word`.  Fuel-driven; each
iteration shortens the sequence by one, so fuel `tokens.length` suffices. -/
def tokenizeLoop (ranks : List (Pair × Nat)) : Nat → List Str → List Str
  | 0, tokens => tokens
  | fuel + 1, tokens =>
    match minByRank (rankedList ranks tokens) with
    | none => tokens
    | some (_, pos, p) =>
      tokenizeLoop ranks fuel
        (tokens.take pos ++ [p.1 ++ p.2] ++ tokens.drop (pos + 2))

/-- `Tokenizer._tokenize_word`. -/
def tokenizeWord (tk : Tokenizer) (w : Str) : List Str :=
  let tokens := w.map (fun c => [c]) ++ [endWord]
  if tk.merges = [] then tokens
  else tokenizeLoop tk.pair_ranks tokens.length tokens

/-! ### Encode / decode -/

/-- Ids for one word inside `Tokenizer.encode` (vocabulary lookup with
character fallback to the unknown id). -/
def encodeWordIds (tk : Tokenizer) (w : Str) : List Nat :=
  (tokenizeWord tk w).foldr
    (fun tok acc =>
      match lookupA tk.vocab tok with
      | some i => i :: acc
      | none =>
        (tok.map fun c => (lookupA tk.vocab [c]).getD (specialId unkS)) ++ acc)
    []

/-- `Tokenizer.encode` (the local `cleaned` variable is inlined). -/
def encode (tk : Tokenizer) (text : Str) (addSpecial : Bool) : List Nat :=
  if processClean text = [] then []
  else
    (if addSpecial then [specialId startoftextS] else [])
      ++ ((pySplit (processClean text)).map (encodeWordIds tk)).flatten
      ++ (if addSpecial then [specialId endoftextS] else [])

/-- Reverse lookup where the last entry wins: this is the net effect of
building `{tid: tok for tok, tid in pairs}` and reading one key. -/
def revLookup (pairs : List (Str × Nat)) (tid : Nat) : Option Str :=
  pairs.foldl (fun acc p => if p.2 = tid then some p.1 else acc) none

/-- The `id_to_token` map of `Tokenizer.decode`: the special-token pass is
written after the vocabulary pass, so it wins. -/
def idToToken (tk : Tokenizer) (tid : Nat) : Option Str :=
  match revLookup specialTokens tid with
  | some t => some t
  | none => revLookup tk.vocab tid

/-- The output-fragment loop of `Tokenizer.decode` (before join and strip). -/
def decodeOut (tk : Tokenizer) : List Nat → List Str
  | [] => []
  | tid :: rest =>
    let tok := (idToToken tk tid).getD unkS
    if tok = startoftextS ∨ tok = paddingS ∨ tok = maskS then decodeOut tk rest
    else if tok = endoftextS then []
    else if tok = endWord then [' '] :: decodeOut tk rest
    else if "<|".data.isPrefixOf tok && "|>".data.isSuffixOf tok then
      decodeOut tk rest
    else tok :: decodeOut tk rest

/-- `Tokenizer.decode`. -/
def decode (tk : Tokenizer) (ids : List Nat) : Str :=
  pyStrip (decodeOut tk ids).flatten

/-! ### Persistence (`load`); files are modelled as optional parsed
contents, `none` meaning the artifact is absent (`FileNotFoundError`). -/

/-- `{tuple(p): i for i, p in enumerate(self.merges)}`. -/
def buildRanks (merges : List Pair) : List (Pair × Nat) :=
  merges.enum.foldl (fun d ip => dictSet d ip.2 ip.1) []

/-- `Tokenizer.load`.  The source assigns `self.vocab` before opening the
merges artifact, so a missing merges file leaves the new vocabulary behind.
(An empty loaded vocabulary would raise an uncaught `ValueError` at
`max(...)` in the source; the model totalises that corner with `max` over
an empty list being 0, which no theorem below relies on.) -/
def load (tk : Tokenizer) (vocabFile : Option (List (Str × Nat)))
    (mergesFile : Option (List Pair)) : Bool × Tokenizer :=
  match vocabFile with
  | none => (false, tk)
  | some v =>
    let tk1 := { tk with vocab := v }
    match mergesFile with
    | none => (false, tk1)
    | some ms =>
      (true,
        { tk1 with
          merges := ms,
          pair_ranks := buildRanks ms,
          next_token_id := listMaxNat (v.map (·.2)) + 1 })

/-! ### Spec-side comparison definitions, invariant predicates and
concrete trained tokenizers used by the theorems below -/

/-- Index of the last occurrence of `p`, offset by `i`. -/
def lastIdxFrom (p : Pair) (i : Nat) : List Pair → Option Nat
  | [] => none
  | q :: rest =>
    match lastIdxFrom p (i + 1) rest with
    | some j => some j
    | none => if q = p then some i else none

/-- Index of the last occurrence of a pair in the merge table. -/
def lastIdx (ms : List Pair) (p : Pair) : Option Nat := lastIdxFrom p 0 ms

/-- Lexicographic (code-point) order on symbol strings, the order the spec's
tie-break rule refers to. -/
def charListLt : Str → Str → Bool
  | _, [] => false
  | [], _ :: _ => true
  | a :: as, b :: bs =>
    if a.val < b.val then true
    else if a.val = b.val then charListLt as bs
    else false

/-- Lexicographic order on pairs (Python tuple comparison). -/
def pairLexLt (p q : Pair) : Bool :=
  charListLt p.1 q.1 || (decide (p.1 = q.1) && charListLt p.2 q.2)

/-- Whether the decode loop hits the end-of-text stop somewhere in `ids`. -/
def stopsB (tk : Tokenizer) : List Nat → Bool
  | [] => false
  | tid :: rest =>
    let tok := (idToToken tk tid).getD unkS
    if tok = startoftextS ∨ tok = paddingS ∨ tok = maskS then stopsB tk rest
    else if tok = endoftextS then true
    else stopsB tk rest

/-- The tokenizer trained on `"<|a|> <|a|>"`: its learned vocabulary
contains the special-shaped symbol `<|a|>` with id 14. -/
def tkSp : Tokenizer := train (Tokenizer.init 1000 2) "<|a|> <|a|>".data

/-- Indexed form of `rankedList` (same data, recursion-friendly). -/
def rankedAux (ranks : List (Pair × Nat)) (i : Nat) : List Pair → List (Nat × Nat × Pair)
  | [] => []
  | p :: ps =>
    match lookupA ranks p with
    | some r => (r, i, p) :: rankedAux ranks (i + 1) ps
    | none => rankedAux ranks (i + 1) ps

/-- Comparison definition following the spec's words for `_tokenize_word`:
"find the one present in the Merge Table with the lowest rank among all
pairs currently in the sequence". -/
def specSelect (ranks : List (Pair × Nat)) (tokens : List Str) : Option Pair :=
  match (adjPairs tokens).filter (fun p => (lookupA ranks p).isSome) with
  | [] => none
  | q :: qs =>
    some (qs.foldl (fun b y =>
      if (lookupA ranks y).getD 0 < (lookupA ranks b).getD 0 then y else b) q)

/-- Comparison definition following the spec's words: "replace that single
occurrence (first lowest-rank match) with its merged symbol". -/
def specStep (ranks : List (Pair × Nat)) (tokens : List Str) : Option (List Str) :=
  match specSelect ranks tokens with
  | none => none
  | some p =>
    some (tokens.take ((adjPairs tokens).findIdx (fun q => q = p))
      ++ [p.1 ++ p.2]
      ++ tokens.drop ((adjPairs tokens).findIdx (fun q => q = p) + 2))

/-- Comparison definition following the spec's words: "repeat until no
adjacent pair in the sequence appears in the Merge Table". -/
def specTokenizeLoop (ranks : List (Pair × Nat)) : Nat → List Str → List Str
  | 0, tokens => tokens
  | fuel + 1, tokens =>
    match specStep ranks tokens with
    | none => tokens
    | some tokens' => specTokenizeLoop ranks fuel tokens'

def specTokenizeWord (ranks : List (Pair × Nat)) (w : Str) : List Str :=
  specTokenizeLoop ranks (w.length + 1) (w.map (fun c => [c]) ++ [endWord])

/-- The tokenizer trained on `"ab ab"` (one merge rule, `(a, b)`). -/
def tkAB : Tokenizer := train (Tokenizer.init 1000 2) "ab ab".data

/-- Trailing-whitespace strip (the second half of `pyStrip`). -/
def stripTrail (l : Str) : Str := (l.reverse.dropWhile pyIsSpace).reverse

/-- Whitespace normal form after collapsing: every whitespace character is
`' '` and is followed by a non-whitespace character or ends the string...
(trailing space still allowed at this stage). -/
def normCW : Str → Bool
  | [] => true
  | [c] => !pyIsSpace c || c = ' '
  | c :: d :: cs => (!pyIsSpace c || (c = ' ' && !pyIsSpace d)) && normCW (d :: cs)

/-- Full normal form: additionally no trailing whitespace. -/
def normTail : Str → Bool
  | [] => true
  | [c] => !pyIsSpace c
  | c :: d :: cs => (!pyIsSpace c || (c = ' ' && !pyIsSpace d)) && normTail (d :: cs)

/-- The fragment string decode produces for a word list: each word is
followed by one space (the end-of-word marker's rendering). -/
def wordsJoin (ws : List Str) : Str := (ws.map (fun w => w ++ [' '])).flatten

/-- Ids of the learned part of the vocabulary are strictly increasing,
at least `lo`, and below `n` (the next free id). -/
def idChainB : Nat → Nat → List (Str × Nat) → Bool
  | _, _, [] => true
  | lo, n, e :: rest => (decide (lo ≤ e.2) && decide (e.2 < n)) && idChainB (e.2 + 1) n rest

/-- The vocabulary is the special-token block followed by learned entries
with strictly increasing fresh ids. -/
def vocabShape (tk : Tokenizer) : Prop :=
  6 ≤ tk.next_token_id ∧
  ∃ rest, tk.vocab = specialTokens ++ rest ∧
    idChainB 6 tk.next_token_id rest = true

/-- Every ranked pair has its merged symbol in the vocabulary and avoids
the end-of-word marker. -/
def ranksOk (tk : Tokenizer) : Prop :=
  ∀ p : Pair, (lookupA tk.pair_ranks p).isSome = true →
    containsA tk.vocab (p.1 ++ p.2) = true ∧ p.1 ≠ endWord ∧ p.2 ≠ endWord

/-! ## Basic lemmas about the dictionary model -/

theorem lookupA_append {α β : Type} [DecidableEq α] (l m : List (α × β)) (k : α) :
    lookupA (l ++ m) k =
      match lookupA l k with
      | some v => some v
      | none => lookupA m k := by
  induction l with
  | nil => rfl
  | cons e rest ih =>
    obtain ⟨k', v'⟩ := e
    by_cases h : k = k' <;> simp [lookupA, h, ih]

theorem lookupA_dictSet_self {α β : Type} [DecidableEq α]
    (l : List (α × β)) (k : α) (v : β) :
    lookupA (dictSet l k v) k = some v := by
  induction l with
  | nil => simp [dictSet, lookupA]
  | cons e rest ih =>
    obtain ⟨k', v'⟩ := e
    by_cases h : k = k' <;> simp [dictSet, lookupA, h, ih]

theorem lookupA_dictSet_ne {α β : Type} [DecidableEq α]
    (l : List (α × β)) (k q : α) (v : β) (h : q ≠ k) :
    lookupA (dictSet l k v) q = lookupA l q := by
  induction l with
  | nil => simp [dictSet, lookupA, h]
  | cons e rest ih =>
    obtain ⟨k', v'⟩ := e
    by_cases hk : k = k'
    · subst hk
      simp [dictSet, lookupA, h]
    · by_cases hq : q = k' <;> simp [dictSet, lookupA, hk, hq, ih]

theorem lookupA_bump_isSome {α : Type} [DecidableEq α]
    (st : List (α × Nat)) (k q : α) (n : Nat)
    (h : (lookupA (bump st k n) q).isSome) :
    q = k ∨ (lookupA st q).isSome := by
  by_cases hqk : q = k
  · exact Or.inl hqk
  · right
    unfold bump at h
    cases hst : lookupA st k with
    | some c =>
      rw [hst] at h
      rwa [lookupA_dictSet_ne st k q (c + n) hqk] at h
    | none =>
      rw [hst] at h
      rw [lookupA_append] at h
      cases hq : lookupA st q with
      | some v => simp
      | none =>
        rw [hq] at h
        simp [lookupA, hqk] at h

/-- A fold keeping either the accumulator or the new element stays in the list. -/
theorem foldl_choice_mem {γ : Type} (f : γ → γ → γ)
    (hf : ∀ b y, f b y = b ∨ f b y = y) (x : γ) (xs : List γ) :
    xs.foldl f x ∈ x :: xs := by
  induction xs generalizing x with
  | nil => simp
  | cons y ys ih =>
    simp only [List.foldl_cons]
    rcases hf x y with h | h <;> rw [h]
    · rcases List.mem_cons.mp (ih x) with h' | h' <;> simp [h', List.mem_cons]
    · rcases List.mem_cons.mp (ih y) with h' | h' <;> simp [h', List.mem_cons]

theorem maxByVal_mem (l : List (Pair × Nat)) (x : Pair × Nat)
    (h : maxByVal l = some x) : x ∈ l := by
  cases l with
  | nil => cases h
  | cons y ys =>
    unfold maxByVal at h
    have hx := foldl_choice_mem (fun b z => if b.2 < z.2 then z else b)
      (by intro b z; by_cases hc : b.2 < z.2 <;> simp [hc]) y ys
    cases h
    exact hx

theorem mem_lookupA_isSome {α β : Type} [DecidableEq α]
    (l : List (α × β)) (k : α) (v : β) (h : (k, v) ∈ l) :
    (lookupA l k).isSome := by
  induction l with
  | nil => cases h
  | cons e rest ih =>
    obtain ⟨k', v'⟩ := e
    rcases List.mem_cons.mp h with h' | h'
    · cases h'
      simp [lookupA]
    · by_cases hk : k = k' <;> simp [lookupA, hk, ih h']

/-! ## Field-preservation facts -/

theorem addCorpusChar_merges (t : Tokenizer) (c : Char) :
    (addCorpusChar t c).merges = t.merges := by
  unfold addCorpusChar; split <;> rfl

theorem addCorpusChar_pair_ranks (t : Tokenizer) (c : Char) :
    (addCorpusChar t c).pair_ranks = t.pair_ranks := by
  unfold addCorpusChar; split <;> rfl

theorem addCorpusChar_vocab_size (t : Tokenizer) (c : Char) :
    (addCorpusChar t c).vocab_size = t.vocab_size := by
  unfold addCorpusChar; split <;> rfl

theorem foldl_addCorpusChar_merges (cs : List Char) (t : Tokenizer) :
    (cs.foldl addCorpusChar t).merges = t.merges := by
  induction cs generalizing t with
  | nil => rfl
  | cons c cs ih => simp [List.foldl_cons, ih, addCorpusChar_merges]

theorem foldl_addCorpusChar_pair_ranks (cs : List Char) (t : Tokenizer) :
    (cs.foldl addCorpusChar t).pair_ranks = t.pair_ranks := by
  induction cs generalizing t with
  | nil => rfl
  | cons c cs ih => simp [List.foldl_cons, ih, addCorpusChar_pair_ranks]

theorem foldl_addCorpusChar_vocab_size (cs : List Char) (t : Tokenizer) :
    (cs.foldl addCorpusChar t).vocab_size = t.vocab_size := by
  induction cs generalizing t with
  | nil => rfl
  | cons c cs ih => simp [List.foldl_cons, ih, addCorpusChar_vocab_size]

theorem initializeVocab_merges (tk : Tokenizer) (text : Str) :
    (initializeVocab tk text).merges = tk.merges := by
  unfold initializeVocab
  rw [foldl_addCorpusChar_merges]
  split <;> rfl

theorem initializeVocab_pair_ranks (tk : Tokenizer) (text : Str) :
    (initializeVocab tk text).pair_ranks = tk.pair_ranks := by
  unfold initializeVocab
  rw [foldl_addCorpusChar_pair_ranks]
  split <;> rfl

theorem initializeVocab_vocab_size (tk : Tokenizer) (text : Str) :
    (initializeVocab tk text).vocab_size = tk.vocab_size := by
  unfold initializeVocab
  rw [foldl_addCorpusChar_vocab_size]
  split <;> rfl

/-! ## Pairs counted by `_get_stats` never touch the end-of-word marker -/

theorem statsOfWord_keys (f : Nat) (w : List Str) (st : List (Pair × Nat))
    (p : Pair) (h : (lookupA (statsOfWord f w st) p).isSome) :
    (lookupA st p).isSome ∨ (p.1 ≠ endWord ∧ p.2 ≠ endWord) := by
  induction w generalizing st with
  | nil => exact Or.inl (by simpa [statsOfWord] using h)
  | cons a tail ih =>
    cases tail with
    | nil => exact Or.inl (by simpa [statsOfWord] using h)
    | cons b rest =>
      rw [statsOfWord] at h
      rcases ih _ h with h' | h'
      · by_cases hew : a = endWord ∨ b = endWord
        · rw [if_pos hew] at h'
          exact Or.inl h'
        · rw [if_neg hew] at h'
          rcases lookupA_bump_isSome st (a, b) p f h' with rfl | h''
          · push_neg at hew
            exact Or.inr hew
          · exact Or.inl h''
      · exact Or.inr h'

theorem foldl_stats_keys (vw : List (List Str × Nat)) (p : Pair) :
    ∀ st, (lookupA (vw.foldl (fun st wf => statsOfWord wf.2 wf.1 st) st) p).isSome →
      (lookupA st p).isSome ∨ (p.1 ≠ endWord ∧ p.2 ≠ endWord) := by
  induction vw with
  | nil => exact fun st hst => Or.inl hst
  | cons wf rest ih =>
    intro st hst
    rw [List.foldl_cons] at hst
    rcases ih (statsOfWord wf.2 wf.1 st) hst with h' | h'
    · exact statsOfWord_keys _ _ _ _ h'
    · exact Or.inr h'

theorem getStats_keys (vw : List (List Str × Nat)) (p : Pair)
    (h : (lookupA (getStats vw) p).isSome) :
    p.1 ≠ endWord ∧ p.2 ≠ endWord := by
  rcases foldl_stats_keys vw p [] h with h' | h'
  · simp [lookupA] at h'
  · exact h'

theorem maxByVal_getStats_ok (vw : List (List Str × Nat)) (bp : Pair) (bf : Nat)
    (h : maxByVal (getStats vw) = some (bp, bf)) :
    bp.1 ≠ endWord ∧ bp.2 ≠ endWord :=
  getStats_keys vw bp (mem_lookupA_isSome _ _ _ (maxByVal_mem _ _ h))

theorem trainLoop_merges_ok (fuel : Nat) (tk : Tokenizer)
    (vw : List (List Str × Nat))
    (h : ∀ p ∈ tk.merges, p.1 ≠ endWord ∧ p.2 ≠ endWord) :
    ∀ p ∈ (trainLoop fuel tk vw).merges, p.1 ≠ endWord ∧ p.2 ≠ endWord := by
  induction fuel generalizing tk vw with
  | zero => exact h
  | succ fuel ih =>
    rw [trainLoop]
    by_cases hlt : tk.vocab.length < tk.vocab_size
    · rw [if_pos hlt]
      cases hmax : maxByVal (getStats vw) with
      | none => exact h
      | some x =>
        obtain ⟨bp, bf⟩ := x
        simp only
        by_cases hmf : bf < tk.min_frequency
        · rw [if_pos hmf]; exact h
        · rw [if_neg hmf]
          apply ih
          intro p hp
          have hbp := maxByVal_getStats_ok vw bp bf hmax
          by_cases hcv : containsA tk.vocab (bp.1 ++ bp.2) = true <;>
            simp only [hcv, if_pos, if_neg, Bool.false_eq_true] at hp <;>
            rcases List.mem_append.mp hp with h' | h' <;>
            first
              | exact h p h'
              | (rcases List.mem_singleton.mp h' with rfl; exact hbp)
    · rw [if_neg hlt]; exact h

/-- C8: every merge rule recorded by training avoids the end-of-word marker
on both sides. -/
theorem c8_aux_train_merges (vs mf : Nat) (corpus : Str) :
    ∀ p ∈ (train (Tokenizer.init vs mf) corpus).merges,
      p.1 ≠ endWord ∧ p.2 ≠ endWord := by
  unfold train
  split
  · intro p hp; cases hp
  · split
    · intro p hp; cases hp
    · apply trainLoop_merges_ok
      rw [initializeVocab_merges]
      intro p hp
      cases hp

/-! ## C6: bound on the vocabulary size after training -/

theorem trainLoop_vocab_size (fuel : Nat) (tk : Tokenizer)
    (vw : List (List Str × Nat)) :
    (trainLoop fuel tk vw).vocab_size = tk.vocab_size := by
  induction fuel generalizing tk vw with
  | zero => rfl
  | succ fuel ih =>
    rw [trainLoop]
    by_cases hlt : tk.vocab.length < tk.vocab_size
    · rw [if_pos hlt]
      cases hmax : maxByVal (getStats vw) with
      | none => rfl
      | some x =>
        obtain ⟨bp, bf⟩ := x
        simp only
        by_cases hmf : bf < tk.min_frequency
        · rw [if_pos hmf]
        · rw [if_neg hmf, ih]
          by_cases hcv : containsA tk.vocab (bp.1 ++ bp.2) = true <;> simp [hcv]
    · rw [if_neg hlt]

theorem trainLoop_vocab_le (fuel : Nat) (tk : Tokenizer)
    (vw : List (List Str × Nat)) :
    (trainLoop fuel tk vw).vocab.length ≤ max tk.vocab.length tk.vocab_size := by
  induction fuel generalizing tk vw with
  | zero => exact le_max_left _ _
  | succ fuel ih =>
    rw [trainLoop]
    by_cases hlt : tk.vocab.length < tk.vocab_size
    · rw [if_pos hlt]
      cases hmax : maxByVal (getStats vw) with
      | none => exact le_max_left _ _
      | some x =>
        obtain ⟨bp, bf⟩ := x
        simp only
        by_cases hmf : bf < tk.min_frequency
        · rw [if_pos hmf]; exact le_max_left _ _
        · rw [if_neg hmf]
          refine le_trans (ih _ _) ?_
          by_cases hcv : containsA tk.vocab (bp.1 ++ bp.2) = true
          · simp only [hcv, if_true]
            exact le_refl _
          · simp only [hcv, Bool.false_eq_true, if_false, List.length_append,
              List.length_singleton]
            have h1 : tk.vocab.length + 1 ≤ tk.vocab_size := hlt
            calc max (tk.vocab.length + 1) tk.vocab_size = tk.vocab_size :=
                  Nat.max_eq_right h1
              _ ≤ max tk.vocab.length tk.vocab_size := le_max_right _ _
    · rw [if_neg hlt]; exact le_max_left _ _

/-- C6 (amended): after training, the vocabulary size is at most the larger
of the configured target and the size the vocabulary already has right
after initialization (special tokens, end-of-word marker and base
characters); the merge loop itself never pushes it past the target. -/
theorem C6_vocab_size_bound (vs mf : Nat) (corpus : Str) :
    (train (Tokenizer.init vs mf) corpus).vocab.length ≤
      max (initializeVocab (Tokenizer.init vs mf) (processClean corpus)).vocab.length
        vs := by
  unfold train
  split
  · exact Nat.zero_le _
  · split
    · exact Nat.zero_le _
    · have h := trainLoop_vocab_le
        (totalSyms (buildWordFreqs (pySplit (processClean corpus))) + 1)
        (initializeVocab (Tokenizer.init vs mf) (processClean corpus))
        (buildWordFreqs (pySplit (processClean corpus)))
      rwa [initializeVocab_vocab_size] at h

/-- C6 counterexample: with target size 3 the trained vocabulary has 8
entries, so the claimed bound by the configured target fails. -/
theorem C6_counterexample :
    ¬((train (Tokenizer.init 3 2) "ab ab".data).vocab.length ≤
        (Tokenizer.init 3 2).vocab_size) := by decide

/-! ## C5: recorded ranks are last-occurrence indices in the merge table -/

theorem lastIdxFrom_append_self (p : Pair) (ms : List Pair) :
    ∀ i, lastIdxFrom p i (ms ++ [p]) = some (i + ms.length) := by
  induction ms with
  | nil => intro i; simp [lastIdxFrom]
  | cons q rest ih =>
    intro i
    rw [List.cons_append, lastIdxFrom, ih (i + 1)]
    simp [Nat.add_comm, Nat.add_assoc, Nat.add_left_comm]

theorem lastIdxFrom_append_ne (p q : Pair) (hq : q ≠ p) (ms : List Pair) :
    ∀ i, lastIdxFrom p i (ms ++ [q]) = lastIdxFrom p i ms := by
  induction ms with
  | nil => intro i; simp [lastIdxFrom, hq]
  | cons r rest ih =>
    intro i
    rw [List.cons_append, lastIdxFrom, ih (i + 1), lastIdxFrom]

theorem lastIdx_append_self (ms : List Pair) (p : Pair) :
    lastIdx (ms ++ [p]) p = some ms.length := by
  rw [lastIdx, lastIdxFrom_append_self, Nat.zero_add]

theorem lastIdx_append_ne (ms : List Pair) (p q : Pair) (hq : q ≠ p) :
    lastIdx (ms ++ [q]) p = lastIdx ms p :=
  lastIdxFrom_append_ne p q hq ms 0

/-- The dict comprehension in `load` computes exactly the last-occurrence
index of each pair. -/
theorem foldl_enumFrom_dictSet (ms : List Pair) (p : Pair) :
    ∀ (i : Nat) (d : List (Pair × Nat)),
      lookupA ((List.enumFrom i ms).foldl (fun d ip => dictSet d ip.2 ip.1) d) p =
        match lastIdxFrom p i ms with
        | some j => some j
        | none => lookupA d p := by
  induction ms with
  | nil => intro i d; rfl
  | cons q rest ih =>
    intro i d
    rw [List.enumFrom_cons, List.foldl_cons, ih (i + 1), lastIdxFrom]
    cases lastIdxFrom p (i + 1) rest with
    | some j => rfl
    | none =>
      by_cases h : q = p
      · subst h
        simp [lookupA_dictSet_self]
      · have h' : p ≠ q := fun hh => h hh.symm
        simp [h, lookupA_dictSet_ne _ _ _ _ h']

theorem buildRanks_eq_lastIdx (ms : List Pair) (p : Pair) :
    lookupA (buildRanks ms) p = lastIdx ms p := by
  have h := foldl_enumFrom_dictSet ms p 0 []
  rw [buildRanks, List.enum]
  rw [h, lastIdx]
  cases lastIdxFrom p 0 ms <;> rfl

theorem trainLoop_ranks_lastIdx (fuel : Nat) (tk : Tokenizer)
    (vw : List (List Str × Nat))
    (h : ∀ p, lookupA tk.pair_ranks p = lastIdx tk.merges p) :
    ∀ p, lookupA (trainLoop fuel tk vw).pair_ranks p =
      lastIdx (trainLoop fuel tk vw).merges p := by
  induction fuel generalizing tk vw with
  | zero => exact h
  | succ fuel ih =>
    rw [trainLoop]
    by_cases hlt : tk.vocab.length < tk.vocab_size
    · rw [if_pos hlt]
      cases hmax : maxByVal (getStats vw) with
      | none => exact h
      | some x =>
        obtain ⟨bp, bf⟩ := x
        simp only
        by_cases hmf : bf < tk.min_frequency
        · rw [if_pos hmf]; exact h
        · rw [if_neg hmf]
          apply ih
          intro p
          by_cases hcv : containsA tk.vocab (bp.1 ++ bp.2) = true <;>
            simp only [hcv, Bool.false_eq_true, if_true, if_false] <;>
            by_cases hp : p = bp
          · subst hp
            rw [lookupA_dictSet_self, lastIdx_append_self]
          · rw [lookupA_dictSet_ne _ _ _ _ hp,
              lastIdx_append_ne _ _ _ (fun hh => hp hh.symm), h p]
          · subst hp
            rw [lookupA_dictSet_self, lastIdx_append_self]
          · rw [lookupA_dictSet_ne _ _ _ _ hp,
              lastIdx_append_ne _ _ _ (fun hh => hp hh.symm), h p]
    · rw [if_neg hlt]; exact h

theorem lastIdx_nodup_get (ms : List Pair) (hnd : ms.Nodup) (n : Nat)
    (h : n < ms.length) : lastIdx ms (ms.get ⟨n, h⟩) = some n := by
  induction ms generalizing n with
  | nil => cases h
  | cons q rest ih =>
    have hq : q ∉ rest := (List.nodup_cons.mp hnd).1
    cases n with
    | zero =>
      have hqr : lastIdxFrom q 1 rest = none := by
        clear ih
        suffices haux : ∀ (l : List Pair) (i : Nat), q ∉ l → lastIdxFrom q i l = none by
          exact haux rest 1 hq
        intro l
        induction l with
        | nil => intro i _; rfl
        | cons r rl ihl =>
          intro i hm
          rw [lastIdxFrom, ihl (i + 1) (fun hh => hm (List.mem_cons_of_mem _ hh))]
          have : r ≠ q := fun hh => hm (hh ▸ List.mem_cons_self _ _)
          simp [this]
      show lastIdxFrom ((q :: rest).get ⟨0, h⟩) 0 (q :: rest) = some 0
      have hget0 : (q :: rest).get ⟨0, h⟩ = q := rfl
      rw [hget0, lastIdxFrom, hqr]
      simp
    | succ m =>
      have hm : m < rest.length := Nat.lt_of_succ_lt_succ h
      have hrec := ih (List.nodup_cons.mp hnd).2 m hm
      show lastIdxFrom ((q :: rest).get ⟨m + 1, h⟩) 0 (q :: rest) = some (m + 1)
      -- the head is skipped; the tail result is shifted by one
      have hget : (q :: rest).get ⟨m + 1, h⟩ = rest.get ⟨m, hm⟩ := rfl
      rw [hget, lastIdxFrom]
      have hshift : ∀ (l : List Pair) (p : Pair) (i : Nat),
          lastIdxFrom p i l = (lastIdxFrom p 0 l).map (· + i) := by
        intro l
        induction l with
        | nil => intro p i; rfl
        | cons r rl ihl =>
          intro p i
          rw [lastIdxFrom, lastIdxFrom, ihl p (i + 1), ihl p 1]
          cases hc : lastIdxFrom p 0 rl with
          | some j => simp [Nat.add_comm, Nat.add_assoc, Nat.add_left_comm]
          | none =>
            by_cases hr : r = p <;> simp [hr]
      rw [hshift _ _ 1]
      rw [lastIdx] at hrec
      rw [hrec]
      simp [Nat.add_comm]

/-- C5 (amended): after training and after `load`, the recorded rank of a
pair is the index of its *last* occurrence in the merge table; hence when
the merge table has no duplicated pair (as in every observed training run,
and in any artifact saved from one), the rank of `merges[i]` is exactly
`i` and ranks are unique.  An artifact whose merge list repeats a pair
violates the claim as originally stated (see the counterexample). -/
theorem C5_rank_is_last_occurrence (vs mf : Nat) (corpus : Str)
    (tk : Tokenizer) (v : List (Str × Nat)) (ms : List Pair)
    (hnd : ms.Nodup) (n : Nat) (hn : n < ms.length) :
    (∀ p, lookupA (train (Tokenizer.init vs mf) corpus).pair_ranks p =
        lastIdx (train (Tokenizer.init vs mf) corpus).merges p)
    ∧ (∀ p, lookupA ((load tk (some v) (some ms)).2).pair_ranks p =
        lastIdx ((load tk (some v) (some ms)).2).merges p)
    ∧ lookupA ((load tk (some v) (some ms)).2).pair_ranks
        (ms.get ⟨n, hn⟩) = some n := by
  refine ⟨?_, ?_, ?_⟩
  · intro p
    unfold train
    split
    · simp [Tokenizer.init, lookupA, lastIdx, lastIdxFrom]
    · split
      · simp [Tokenizer.init, lookupA, lastIdx, lastIdxFrom]
      · apply trainLoop_ranks_lastIdx
        intro q
        rw [initializeVocab_pair_ranks, initializeVocab_merges]
        simp [Tokenizer.init, lookupA, lastIdx, lastIdxFrom]
  · intro p
    show lookupA (buildRanks ms) p = lastIdx ms p
    exact buildRanks_eq_lastIdx ms p
  · show lookupA (buildRanks ms) (ms.get ⟨n, hn⟩) = some n
    rw [buildRanks_eq_lastIdx]
    exact lastIdx_nodup_get ms hnd n hn

/-- C5 counterexample: loading a merge artifact that repeats a pair gives
`merges[0]` a recorded rank of 1, not 0, so `rank(merges[i]) == i` fails
as stated. -/
theorem C5_counterexample :
    ((load (Tokenizer.init 10 2) (some [(['a'], 7)])
        (some [(['a'], ['b']), (['a'], ['b'])])).2.merges.get ⟨0, by decide⟩
      = (['a'], ['b']))
    ∧ lookupA ((load (Tokenizer.init 10 2) (some [(['a'], 7)])
        (some [(['a'], ['b']), (['a'], ['b'])])).2).pair_ranks (['a'], ['b'])
      ≠ some 0 := by decide

/-! ## C3: behaviour of `load` when an artifact is missing -/

/-- C3 (amended): `load` returns `false` without raising when either
artifact is absent; the state is untouched when the *vocabulary* artifact
is missing, but when only the *merges* artifact is missing the vocabulary
has already been replaced by the loaded one (merges and ranks keep their
old values). -/
theorem C3_load_missing_artifact (tk : Tokenizer) (v : List (Str × Nat))
    (mf : Option (List Pair)) :
    load tk none mf = (false, tk) ∧
    load tk (some v) none = (false, { tk with vocab := v }) :=
  ⟨rfl, rfl⟩

/-- C3 counterexample: vocabulary artifact present, merges artifact absent:
`load` returns `false` but the vocabulary was mutated. -/
theorem C3_counterexample :
    (load (Tokenizer.init 5 2) (some [(['a'], 7)]) none).1 = false ∧
    (load (Tokenizer.init 5 2) (some [(['a'], 7)]) none).2.vocab ≠
      (Tokenizer.init 5 2).vocab := by decide

/-! ## C9: encoding an input that is empty after cleaning -/

/-- C9 (amended): when the cleaned input is empty, `encode` returns the
empty sequence in *both* modes; with boundaries requested it does **not**
emit the start/end ids (the empty-input check short-circuits first). -/
theorem C9_empty_clean_encodes_empty (tk : Tokenizer) (text : Str) (b : Bool)
    (h : processClean text = []) : encode tk text b = [] := by
  unfold encode
  rw [if_pos h]

/-- Witness for C9 on a trained tokenizer and the empty input. -/
theorem C9_witness :
    processClean [] = [] ∧
    encode (train (Tokenizer.init 1000 2) "ab ab".data) [] true = [] :=
  ⟨rfl, C9_empty_clean_encodes_empty (train (Tokenizer.init 1000 2) "ab ab".data)
    [] true rfl⟩

/-- C9 counterexample: with boundaries requested and empty input the claim
predicts `[start, end]`; the code returns `[]`. -/
theorem C9_counterexample :
    encode (train (Tokenizer.init 1000 2) "ab ab".data) [] true = [] ∧
    ([] : List Nat) ≠ [specialId startoftextS, specialId endoftextS] := by decide

/-- C8: no merge rule ever recorded by training contains the end-of-word
marker as its left or right symbol — such pairs are excluded from merge
candidacy by `_get_stats` at every selection step. -/
theorem C8_merge_rules_avoid_endword (vs mf : Nat) (corpus : Str) (p : Pair)
    (hp : p ∈ (train (Tokenizer.init vs mf) corpus).merges) :
    p.1 ≠ endWord ∧ p.2 ≠ endWord :=
  c8_aux_train_merges vs mf corpus p hp

/-- Witness for C8 on a concrete training run. -/
theorem C8_witness :
    ((['a'], ['b']) ∈ (train (Tokenizer.init 1000 2) "ab ab".data).merges) ∧
    ((['a'] : Str) ≠ endWord ∧ (['b'] : Str) ≠ endWord) :=
  ⟨by decide,
    C8_merge_rules_avoid_endword 1000 2 "ab ab".data (['a'], ['b']) (by decide)⟩

/-- Witness for C5 on a concrete training run and a concrete artifact. -/
theorem C5_witness :
    ([((['a'] : Str), (['b'] : Str))].Nodup ∧
      0 < [((['a'] : Str), (['b'] : Str))].length) ∧
    lookupA ((load (Tokenizer.init 1000 2) (some [(['a'], 7)])
        (some [((['a'] : Str), (['b'] : Str))])).2).pair_ranks
      ([((['a'] : Str), (['b'] : Str))].get ⟨0, by decide⟩) = some 0 :=
  ⟨⟨by decide, by decide⟩,
    (C5_rank_is_last_occurrence 1000 2 "ab ab".data (Tokenizer.init 1000 2)
      [(['a'], 7)] [((['a'] : Str), (['b'] : Str))] (by decide) 0 (by decide)).2.2⟩

/-! ## C4: tie-break policy of the pair selection -/

/-- `maxByVal` returns the *first* entry attaining the maximum value, in
list (i.e. first-occurrence / insertion) order. -/
theorem maxByVal_first (l : List (Pair × Nat)) (x : Pair × Nat)
    (h : maxByVal l = some x) :
    ∃ l1 l2, l = l1 ++ x :: l2 ∧ (∀ y ∈ l1, y.2 < x.2) ∧ (∀ y ∈ l2, y.2 ≤ x.2) := by
  cases l with
  | nil => cases h
  | cons y ys =>
    unfold maxByVal at h
    have hx : ys.foldl (fun b z => if b.2 < z.2 then z else b) y = x := by
      cases h; rfl
    clear h
    induction ys generalizing y with
    | nil =>
      have hyx : y = x := hx
      refine ⟨[], [], ?_, ?_, ?_⟩
      · rw [List.nil_append, hyx]
      · intro z hz; cases hz
      · intro z hz; cases hz
    | cons z zs ih =>
      rw [List.foldl_cons] at hx
      by_cases hlt : y.2 < z.2
      · rw [if_pos hlt] at hx
        obtain ⟨l1, l2, hdec, h1, h2⟩ := ih z hx
        refine ⟨y :: l1, l2, by rw [List.cons_append, hdec], ?_, h2⟩
        intro w hw
        rcases List.mem_cons.mp hw with rfl | hw'
        · cases l1 with
          | nil =>
            have hzx : z = x := by
              have hh := congrArg (fun t => t.head?) hdec
              simpa using hh
            exact hzx ▸ hlt
          | cons w1 l1' =>
            have hz1 : w1 = z := by
              have hh := congrArg (fun t => t.head?) hdec
              simpa using hh.symm
            exact lt_trans hlt (hz1 ▸ h1 w1 (List.mem_cons_self _ _))
        · exact h1 w hw'
      · rw [if_neg hlt] at hx
        obtain ⟨l1, l2, hdec, h1, h2⟩ := ih y hx
        cases l1 with
        | nil =>
          have hy : y = x := by
            have hh := congrArg (fun t => t.head?) hdec
            simpa using hh
          have hzs : zs = l2 := by
            have hh := congrArg (fun t => t.tail) hdec
            simpa using hh
          refine ⟨[], z :: l2, ?_, ?_, ?_⟩
          · rw [List.nil_append, hy, hzs]
          · intro w hw; cases hw
          · intro w hw
            rcases List.mem_cons.mp hw with rfl | hw'
            · exact hy ▸ Nat.le_of_not_lt hlt
            · exact h2 w hw'
        | cons w1 l1' =>
          have hy1 : w1 = y := by
            have hh := congrArg (fun t => t.head?) hdec
            simpa using hh.symm
          have hzs : zs = l1' ++ x :: l2 := by
            have hh := congrArg (fun t => t.tail) hdec
            simpa using hh
          refine ⟨w1 :: z :: l1', l2, ?_, ?_, h2⟩
          · rw [hzs, hy1]; simp
          · intro w hw
            have hw1 : w1.2 < x.2 := h1 w1 (List.mem_cons_self _ _)
            rcases List.mem_cons.mp hw with rfl | hw'
            · exact hw1
            · rcases List.mem_cons.mp hw' with rfl | hw''
              · exact lt_of_le_of_lt (hy1 ▸ Nat.le_of_not_lt hlt) hw1
              · exact h1 w (List.mem_cons_of_mem _ hw'')

/-- C4 (amended): at each selection step, the pair picked is the *first*
pair in the pair-statistics table (first-occurrence order: words in corpus
order, positions left to right) whose weighted count attains the maximum —
not the lexicographically least among the tied pairs. -/
theorem C4_selection_is_first_max (vw : List (List Str × Nat))
    (x : Pair × Nat) (h : maxByVal (getStats vw) = some x) :
    ∃ l1 l2, getStats vw = l1 ++ x :: l2 ∧
      (∀ y ∈ l1, y.2 < x.2) ∧ (∀ y ∈ l2, y.2 ≤ x.2) :=
  maxByVal_first (getStats vw) x h

/-- Witness for C4 on the concrete statistics of corpus `"cb ab cb ab"`. -/
theorem C4_witness :
    maxByVal (getStats (buildWordFreqs (pySplit (processClean "cb ab cb ab".data))))
      = some ((['c'], ['b']), 2) ∧
    ∃ l1 l2,
      getStats (buildWordFreqs (pySplit (processClean "cb ab cb ab".data))) =
        l1 ++ ((['c'], ['b']), 2) :: l2 ∧
      (∀ y ∈ l1, y.2 < 2) ∧ (∀ y ∈ l2, y.2 ≤ 2) :=
  ⟨by decide,
    C4_selection_is_first_max
      (buildWordFreqs (pySplit (processClean "cb ab cb ab".data)))
      ((['c'], ['b']), 2) (by decide)⟩

/-- C4 counterexample: on corpus `"cb ab cb ab"` the pairs `(c,b)` and
`(a,b)` tie at the maximum count 2, the lexicographically least is
`(a,b)`, yet training merges `(c,b)` first (first-occurrence order). -/
theorem C4_counterexample :
    getStats (buildWordFreqs (pySplit (processClean "cb ab cb ab".data))) =
      [((['c'], ['b']), 2), ((['a'], ['b']), 2)]
    ∧ (train (Tokenizer.init 1000 2) "cb ab cb ab".data).merges.head? =
        some (['c'], ['b'])
    ∧ pairLexLt (['a'], ['b']) (['c'], ['b']) = true
    ∧ (['a'], ['b']) ≠ ((['c'] : Str), (['b'] : Str)) := by decide

/-! ## C2 / C10: behaviour of the decode loop -/

/-! Branch equations for the decode loop and its stop detector. -/

theorem decodeOut_cons_skip (tk : Tokenizer) (tid : Nat) (l : List Nat)
    (h1 : (idToToken tk tid).getD unkS = startoftextS ∨
      (idToToken tk tid).getD unkS = paddingS ∨
      (idToToken tk tid).getD unkS = maskS) :
    decodeOut tk (tid :: l) = decodeOut tk l := by
  simp only [decodeOut]
  rw [if_pos h1]

theorem decodeOut_cons_eot (tk : Tokenizer) (tid : Nat) (l : List Nat)
    (h1 : ¬((idToToken tk tid).getD unkS = startoftextS ∨
      (idToToken tk tid).getD unkS = paddingS ∨
      (idToToken tk tid).getD unkS = maskS))
    (h2 : (idToToken tk tid).getD unkS = endoftextS) :
    decodeOut tk (tid :: l) = [] := by
  simp only [decodeOut]
  rw [if_neg h1, if_pos h2]

theorem decodeOut_cons_ew (tk : Tokenizer) (tid : Nat) (l : List Nat)
    (h1 : ¬((idToToken tk tid).getD unkS = startoftextS ∨
      (idToToken tk tid).getD unkS = paddingS ∨
      (idToToken tk tid).getD unkS = maskS))
    (h2 : (idToToken tk tid).getD unkS ≠ endoftextS)
    (h3 : (idToToken tk tid).getD unkS = endWord) :
    decodeOut tk (tid :: l) = [' '] :: decodeOut tk l := by
  simp only [decodeOut]
  rw [if_neg h1, if_neg h2, if_pos h3]

theorem decodeOut_cons_shape (tk : Tokenizer) (tid : Nat) (l : List Nat)
    (h1 : ¬((idToToken tk tid).getD unkS = startoftextS ∨
      (idToToken tk tid).getD unkS = paddingS ∨
      (idToToken tk tid).getD unkS = maskS))
    (h2 : (idToToken tk tid).getD unkS ≠ endoftextS)
    (h3 : (idToToken tk tid).getD unkS ≠ endWord)
    (h4 : ("<|".data.isPrefixOf ((idToToken tk tid).getD unkS) &&
      "|>".data.isSuffixOf ((idToToken tk tid).getD unkS)) = true) :
    decodeOut tk (tid :: l) = decodeOut tk l := by
  simp only [decodeOut]
  rw [if_neg h1, if_neg h2, if_neg h3, if_pos h4]

theorem decodeOut_cons_lit (tk : Tokenizer) (tid : Nat) (l : List Nat)
    (h1 : ¬((idToToken tk tid).getD unkS = startoftextS ∨
      (idToToken tk tid).getD unkS = paddingS ∨
      (idToToken tk tid).getD unkS = maskS))
    (h2 : (idToToken tk tid).getD unkS ≠ endoftextS)
    (h3 : (idToToken tk tid).getD unkS ≠ endWord)
    (h4 : ("<|".data.isPrefixOf ((idToToken tk tid).getD unkS) &&
      "|>".data.isSuffixOf ((idToToken tk tid).getD unkS)) = false) :
    decodeOut tk (tid :: l) = (idToToken tk tid).getD unkS :: decodeOut tk l := by
  simp only [decodeOut]
  rw [if_neg h1, if_neg h2, if_neg h3,
    if_neg (by rw [h4]; exact fun h => nomatch h)]

theorem stopsB_cons_skip (tk : Tokenizer) (tid : Nat) (l : List Nat)
    (h1 : (idToToken tk tid).getD unkS = startoftextS ∨
      (idToToken tk tid).getD unkS = paddingS ∨
      (idToToken tk tid).getD unkS = maskS) :
    stopsB tk (tid :: l) = stopsB tk l := by
  simp only [stopsB]
  rw [if_pos h1]

theorem stopsB_cons_eot (tk : Tokenizer) (tid : Nat) (l : List Nat)
    (h1 : ¬((idToToken tk tid).getD unkS = startoftextS ∨
      (idToToken tk tid).getD unkS = paddingS ∨
      (idToToken tk tid).getD unkS = maskS))
    (h2 : (idToToken tk tid).getD unkS = endoftextS) :
    stopsB tk (tid :: l) = true := by
  simp only [stopsB]
  rw [if_neg h1, if_pos h2]

theorem stopsB_cons_other (tk : Tokenizer) (tid : Nat) (l : List Nat)
    (h1 : ¬((idToToken tk tid).getD unkS = startoftextS ∨
      (idToToken tk tid).getD unkS = paddingS ∨
      (idToToken tk tid).getD unkS = maskS))
    (h2 : (idToToken tk tid).getD unkS ≠ endoftextS) :
    stopsB tk (tid :: l) = stopsB tk l := by
  simp only [stopsB]
  rw [if_neg h1, if_neg h2]

theorem decodeOut_append (tk : Tokenizer) (xs ys : List Nat) :
    decodeOut tk (xs ++ ys) =
      decodeOut tk xs ++ (if stopsB tk xs then [] else decodeOut tk ys) := by
  induction xs with
  | nil => simp [decodeOut, stopsB]
  | cons tid rest ih =>
    rw [List.cons_append]
    by_cases h1 : (idToToken tk tid).getD unkS = startoftextS ∨
        (idToToken tk tid).getD unkS = paddingS ∨
        (idToToken tk tid).getD unkS = maskS
    · rw [decodeOut_cons_skip tk tid _ h1, decodeOut_cons_skip tk tid _ h1,
        stopsB_cons_skip tk tid _ h1, ih]
    · by_cases h2 : (idToToken tk tid).getD unkS = endoftextS
      · rw [decodeOut_cons_eot tk tid _ h1 h2, decodeOut_cons_eot tk tid _ h1 h2,
          stopsB_cons_eot tk tid _ h1 h2]
        simp
      · rw [stopsB_cons_other tk tid _ h1 h2]
        by_cases h3 : (idToToken tk tid).getD unkS = endWord
        · rw [decodeOut_cons_ew tk tid _ h1 h2 h3, decodeOut_cons_ew tk tid _ h1 h2 h3,
            ih]
          simp
        · cases h4 : ("<|".data.isPrefixOf ((idToToken tk tid).getD unkS) &&
              "|>".data.isSuffixOf ((idToToken tk tid).getD unkS)) with
          | true =>
            rw [decodeOut_cons_shape tk tid _ h1 h2 h3 h4,
              decodeOut_cons_shape tk tid _ h1 h2 h3 h4, ih]
          | false =>
            rw [decodeOut_cons_lit tk tid _ h1 h2 h3 h4,
              decodeOut_cons_lit tk tid _ h1 h2 h3 h4, ih]
            simp

/-- A single id whose token falls in a `continue` branch of the decode loop
contributes nothing, wherever it sits in the sequence. -/
theorem decodeOut_skip (tk : Tokenizer) (u : Nat)
    (hskip :
      ((idToToken tk u).getD unkS = startoftextS ∨
        (idToToken tk u).getD unkS = paddingS ∨
        (idToToken tk u).getD unkS = maskS) ∨
      ((idToToken tk u).getD unkS ≠ endoftextS ∧
        (idToToken tk u).getD unkS ≠ endWord ∧
        ("<|".data.isPrefixOf ((idToToken tk u).getD unkS) &&
          "|>".data.isSuffixOf ((idToToken tk u).getD unkS)) = true))
    (xs ys : List Nat) :
    decodeOut tk (xs ++ u :: ys) = decodeOut tk (xs ++ ys) := by
  rw [decodeOut_append, decodeOut_append]
  by_cases hstop : stopsB tk xs = true
  · rw [if_pos hstop, if_pos hstop]
  · rw [if_neg hstop, if_neg hstop]
    congr 1
    rcases hskip with h1 | ⟨h2, h3, h4⟩
    · exact decodeOut_cons_skip tk u ys h1
    · by_cases h1 : (idToToken tk u).getD unkS = startoftextS ∨
          (idToToken tk u).getD unkS = paddingS ∨
          (idToToken tk u).getD unkS = maskS
      · exact decodeOut_cons_skip tk u ys h1
      · exact decodeOut_cons_shape tk u ys h1 h2 h3 h4

/-- C10: decode emits no text for an id that is unmapped (no placeholder
reaches the output), and it silently drops any mapped token whose surface
form starts with `<|` and ends with `|>` (other than the end-of-text stop),
including learned vocabulary symbols of that shape. -/
theorem C10_decode_drops_unknown_and_special_shaped (tk : Tokenizer)
    (u : Nat) (xs ys : List Nat) :
    (idToToken tk u = none →
      decode tk (xs ++ u :: ys) = decode tk (xs ++ ys))
    ∧ (∀ s, idToToken tk u = some s →
        "<|".data.isPrefixOf s = true → "|>".data.isSuffixOf s = true →
        s ≠ endoftextS →
        decode tk (xs ++ u :: ys) = decode tk (xs ++ ys)) := by
  constructor
  · intro hnone
    have hget : (idToToken tk u).getD unkS = unkS := by rw [hnone]; rfl
    unfold decode
    rw [decodeOut_skip tk u ?_ xs ys]
    rw [hget]
    right
    refine ⟨by decide, by decide, by decide⟩
  · intro s hsome hpre hsuf hne
    have hget : (idToToken tk u).getD unkS = s := by rw [hsome]; rfl
    unfold decode
    rw [decodeOut_skip tk u ?_ xs ys]
    rw [hget]
    right
    refine ⟨hne, ?_, by rw [hpre, hsuf]; rfl⟩
    intro hEW
    rw [hEW] at hpre
    exact absurd hpre (by decide)

/-- Witness for C10: an unmapped id (999) and the learned `<|a|>`-shaped
symbol (id 14) both contribute nothing to the decoded text. -/
theorem C10_witness :
    idToToken tkSp 999 = none ∧
    decode tkSp ([2000] ++ 999 :: [7]) = decode tkSp ([2000] ++ [7]) ∧
    idToToken tkSp 14 = some "<|a|>".data ∧
    decode tkSp ([2000] ++ 14 :: [7]) = decode tkSp ([2000] ++ [7]) :=
  ⟨by decide,
    (C10_decode_drops_unknown_and_special_shaped tkSp 999 [2000] [7]).1 (by decide),
    by decide,
    (C10_decode_drops_unknown_and_special_shaped tkSp 14 [2000] [7]).2
      "<|a|>".data (by decide) (by decide) (by decide) (by decide)⟩

/-- C2 (amended): ids are processed in order; a token equal to the
end-of-text surface form truncates, start-of-text/padding/mask are
skipped, the end-of-word marker emits a space, and any other known symbol
is appended literally **unless** its surface form starts with `<|` and
ends with `|>`, in which case it is silently dropped. -/
theorem C2_decode_step_cases (tk : Tokenizer) (tid : Nat) (s : Str)
    (hs : idToToken tk tid = some s) (xs ys : List Nat)
    (hxs : stopsB tk xs = false) :
    (s = endoftextS → decodeOut tk (xs ++ tid :: ys) = decodeOut tk xs)
    ∧ (s = startoftextS ∨ s = paddingS ∨ s = maskS →
        decodeOut tk (xs ++ tid :: ys) = decodeOut tk (xs ++ ys))
    ∧ (s = endWord →
        decodeOut tk (xs ++ tid :: ys) =
          decodeOut tk xs ++ [' '] :: decodeOut tk ys)
    ∧ (¬(s = startoftextS ∨ s = paddingS ∨ s = maskS) → s ≠ endoftextS →
        s ≠ endWord →
        ("<|".data.isPrefixOf s && "|>".data.isSuffixOf s) = false →
        decodeOut tk (xs ++ tid :: ys) =
          decodeOut tk xs ++ s :: decodeOut tk ys) := by
  have hget : (idToToken tk tid).getD unkS = s := by rw [hs]; rfl
  have hnostop : ¬(stopsB tk xs = true) := by rw [hxs]; exact fun h => nomatch h
  refine ⟨?_, ?_, ?_, ?_⟩
  · intro heot
    rw [decodeOut_append, if_neg hnostop]
    have hne : ¬((idToToken tk tid).getD unkS = startoftextS ∨
        (idToToken tk tid).getD unkS = paddingS ∨
        (idToToken tk tid).getD unkS = maskS) := by
      rw [hget, heot]; decide
    rw [decodeOut_cons_eot tk tid ys hne (by rw [hget, heot]), List.append_nil]
  · intro hin
    rw [decodeOut_append, decodeOut_append, if_neg hnostop, if_neg hnostop]
    congr 1
    exact decodeOut_cons_skip tk tid ys (by rw [hget]; exact hin)
  · intro hEW
    rw [decodeOut_append, if_neg hnostop]
    have hne : ¬((idToToken tk tid).getD unkS = startoftextS ∨
        (idToToken tk tid).getD unkS = paddingS ∨
        (idToToken tk tid).getD unkS = maskS) := by
      rw [hget, hEW]; decide
    rw [decodeOut_cons_ew tk tid ys hne (by rw [hget, hEW]; decide)
      (by rw [hget, hEW])]
  · intro hnotin hne1 hne2 hshape
    rw [decodeOut_append, if_neg hnostop]
    rw [decodeOut_cons_lit tk tid ys (by rw [hget]; exact hnotin)
      (by rw [hget]; exact hne1) (by rw [hget]; exact hne2)
      (by rw [hget]; exact hshape), hget]

/-- Witness for C2 on the end-of-word branch of a trained tokenizer. -/
theorem C2_witness :
    idToToken (train (Tokenizer.init 1000 2) "ab ab".data) 6 = some endWord ∧
    stopsB (train (Tokenizer.init 1000 2) "ab ab".data) [9] = false ∧
    decodeOut (train (Tokenizer.init 1000 2) "ab ab".data) ([9] ++ 6 :: [7]) =
      decodeOut (train (Tokenizer.init 1000 2) "ab ab".data) [9] ++
        [' '] :: decodeOut (train (Tokenizer.init 1000 2) "ab ab".data) [7] :=
  ⟨by decide, by decide,
    (C2_decode_step_cases (train (Tokenizer.init 1000 2) "ab ab".data) 6 endWord
      (by decide) [9] [7] (by decide)).2.2.1 rfl⟩

/-- C2 counterexample: the learned symbol `<|a|>` (id 14 of `tkSp`) is a
known vocabulary symbol that is not a reserved token nor the marker, yet
decode drops it instead of appending its literal text. -/
theorem C2_counterexample :
    idToToken tkSp 14 = some "<|a|>".data
    ∧ lookupA tkSp.vocab "<|a|>".data = some 14
    ∧ "<|a|>".data ≠ startoftextS ∧ "<|a|>".data ≠ paddingS
    ∧ "<|a|>".data ≠ maskS ∧ "<|a|>".data ≠ endoftextS
    ∧ "<|a|>".data ≠ endWord
    ∧ decodeOut tkSp [14] = []
    ∧ ([] : List Str) ≠ ["<|a|>".data] := by decide

/-! ## C7: the per-word loop applies the lowest-rank merge at its
leftmost occurrence, until no table pair remains -/

/-- A fold with `if f z < f b then z else b` keeps the first `f`-minimal
element of `y :: ys`. -/
theorem foldl_min_by_first {α : Type} (f : α → Nat) (y : α) (ys : List α) :
    ∃ l1 l2, y :: ys = l1 ++ (ys.foldl (fun b z => if f z < f b then z else b) y) :: l2
      ∧ (∀ z ∈ l1, f (ys.foldl (fun b z => if f z < f b then z else b) y) < f z)
      ∧ (∀ z ∈ l2, f (ys.foldl (fun b z => if f z < f b then z else b) y) ≤ f z) := by
  induction ys generalizing y with
  | nil =>
    refine ⟨[], [], rfl, ?_, ?_⟩
    · intro z hz; cases hz
    · intro z hz; cases hz
  | cons z zs ih =>
    simp only [List.foldl_cons]
    by_cases hlt : f z < f y
    · rw [if_pos hlt]
      obtain ⟨l1, l2, hdec, h1, h2⟩ := ih z
      set m := zs.foldl (fun b w => if f w < f b then w else b) z with hm
      refine ⟨y :: l1, l2, by rw [List.cons_append, hdec], ?_, h2⟩
      intro w hw
      rcases List.mem_cons.mp hw with rfl | hw'
      · cases l1 with
        | nil =>
          have hzx : z = m := by
            have hh := congrArg (fun t => t.head?) hdec
            simpa using hh
          exact hzx ▸ hlt
        | cons w1 l1' =>
          have hz1 : w1 = z := by
            have hh := congrArg (fun t => t.head?) hdec
            simpa using hh.symm
          exact lt_trans (hz1 ▸ h1 w1 (List.mem_cons_self _ _)) hlt
      · exact h1 w hw'
    · rw [if_neg hlt]
      obtain ⟨l1, l2, hdec, h1, h2⟩ := ih y
      set m := zs.foldl (fun b w => if f w < f b then w else b) y with hm
      cases l1 with
      | nil =>
        have hy : y = m := by
          have hh := congrArg (fun t => t.head?) hdec
          simpa using hh
        have hzs : zs = l2 := by
          have hh := congrArg (fun t => t.tail) hdec
          simpa using hh
        refine ⟨[], z :: l2, ?_, ?_, ?_⟩
        · rw [List.nil_append, hy, hzs]
        · intro w hw; cases hw
        · intro w hw
          rcases List.mem_cons.mp hw with rfl | hw'
          · exact hy ▸ Nat.le_of_not_lt hlt
          · exact h2 w hw'
      | cons w1 l1' =>
        have hy1 : w1 = y := by
          have hh := congrArg (fun t => t.head?) hdec
          simpa using hh.symm
        have hzs : zs = l1' ++ m :: l2 := by
          have hh := congrArg (fun t => t.tail) hdec
          simpa using hh
        refine ⟨w1 :: z :: l1', l2, ?_, ?_, h2⟩
        · rw [hzs, hy1]; simp
        · intro w hw
          have hw1 : f m < f w1 := h1 w1 (List.mem_cons_self _ _)
          rcases List.mem_cons.mp hw with rfl | hw'
          · exact hw1
          · rcases List.mem_cons.mp hw' with rfl | hw''
            · exact lt_of_lt_of_le hw1 (hy1 ▸ Nat.le_of_not_lt hlt)
            · exact h1 w (List.mem_cons_of_mem _ hw'')

theorem rankedList_eq_aux (ranks : List (Pair × Nat)) (tokens : List Str) :
    rankedList ranks tokens = rankedAux ranks 0 (adjPairs tokens) := by
  rw [rankedList, List.enum]
  generalize adjPairs tokens = ps
  suffices haux : ∀ (ps : List Pair) (i : Nat),
      (List.enumFrom i ps).filterMap (fun ip =>
        match lookupA ranks ip.2 with
        | some r => some (r, ip.1, ip.2)
        | none => none) = rankedAux ranks i ps by
    exact haux ps 0
  intro ps
  induction ps with
  | nil => intro i; rfl
  | cons p ps ih =>
    intro i
    rw [List.enumFrom_cons, List.filterMap_cons, rankedAux]
    cases lookupA ranks p with
    | some r => simp only; rw [ih (i + 1)]
    | none => simp only; rw [ih (i + 1)]

theorem rankedAux_mem (ranks : List (Pair × Nat)) (ps : List Pair) :
    ∀ (i : Nat) (t : Nat × Nat × Pair), t ∈ rankedAux ranks i ps →
      lookupA ranks t.2.2 = some t.1 ∧
      ∃ k, t.2.1 = i + k ∧ ps.get? k = some t.2.2 := by
  induction ps with
  | nil => intro i t ht; cases ht
  | cons p ps ih =>
    intro i t ht
    rw [rankedAux] at ht
    cases hl : lookupA ranks p with
    | some r =>
      rw [hl] at ht
      rcases List.mem_cons.mp ht with rfl | ht'
      · exact ⟨hl, 0, by simp, rfl⟩
      · obtain ⟨h1, k, hk, hget⟩ := ih (i + 1) t ht'
        exact ⟨h1, k + 1, by omega, hget⟩
    | none =>
      rw [hl] at ht
      obtain ⟨h1, k, hk, hget⟩ := ih (i + 1) t ht
      exact ⟨h1, k + 1, by omega, hget⟩

theorem rankedAux_idx_sorted (ranks : List (Pair × Nat)) (ps : List Pair) :
    ∀ i, (rankedAux ranks i ps).Pairwise (fun s t => s.2.1 < t.2.1) := by
  induction ps with
  | nil => intro i; exact List.Pairwise.nil
  | cons p ps ih =>
    intro i
    rw [rankedAux]
    cases hl : lookupA ranks p with
    | some r =>
      refine List.Pairwise.cons ?_ (ih (i + 1))
      intro t ht
      obtain ⟨_, k, hk, _⟩ := rankedAux_mem ranks ps (i + 1) t ht
      simp only
      omega
    | none => exact ih (i + 1)

theorem rankedAux_map_eq_filter (ranks : List (Pair × Nat)) (ps : List Pair) :
    ∀ i, (rankedAux ranks i ps).map (fun t => t.2.2) =
      ps.filter (fun p => (lookupA ranks p).isSome) := by
  induction ps with
  | nil => intro i; rfl
  | cons p ps ih =>
    intro i
    rw [rankedAux]
    cases hl : lookupA ranks p with
    | some r =>
      rw [List.filter_cons_of_pos (by rw [hl]; rfl)]
      simp only [List.map_cons]
      rw [ih (i + 1)]
    | none =>
      rw [List.filter_cons_of_neg (by rw [hl]; exact fun h => nomatch h)]
      exact ih (i + 1)

theorem rankedAux_of_get (ranks : List (Pair × Nat)) (ps : List Pair) :
    ∀ (i k : Nat) (q : Pair) (r : Nat), ps.get? k = some q →
      lookupA ranks q = some r → (r, i + k, q) ∈ rankedAux ranks i ps := by
  induction ps with
  | nil => intro i k q r hget; cases k <;> cases hget
  | cons p ps ih =>
    intro i k q r hget hl
    rw [rankedAux]
    cases k with
    | zero =>
      cases hget
      rw [hl]
      exact List.mem_cons_self _ _
    | succ k' =>
      have hmem := ih (i + 1) k' q r hget hl
      have harith : i + 1 + k' = i + (k' + 1) := by omega
      cases hl' : lookupA ranks p with
      | some r' =>
        refine List.mem_cons_of_mem _ ?_
        rw [← harith]
        exact hmem
      | none =>
        rw [← harith]
        exact hmem

theorem foldl_min_by_first' {α : Type} (f : α → Nat) (y m : α) (ys : List α)
    (hm : ys.foldl (fun b z => if f z < f b then z else b) y = m) :
    ∃ l1 l2, y :: ys = l1 ++ m :: l2 ∧ (∀ z ∈ l1, f m < f z) ∧
      (∀ z ∈ l2, f m ≤ f z) := by
  obtain ⟨l1, l2, hdec, h1, h2⟩ := foldl_min_by_first f y ys
  rw [hm] at hdec h1 h2
  exact ⟨l1, l2, hdec, h1, h2⟩

theorem minByRank_none_iff (l : List (Nat × Nat × Pair)) :
    minByRank l = none ↔ l = [] := by
  cases l <;> simp [minByRank]

theorem rankedAux_nil_imp (ranks : List (Pair × Nat)) (ps : List Pair) :
    ∀ i, rankedAux ranks i ps = [] → ∀ p ∈ ps, lookupA ranks p = none := by
  induction ps with
  | nil => intro i _ p hp; cases hp
  | cons q ps ih =>
    intro i hnil p hp
    rw [rankedAux] at hnil
    cases hl : lookupA ranks q with
    | some r => rw [hl] at hnil; cases hnil
    | none =>
      rw [hl] at hnil
      rcases List.mem_cons.mp hp with rfl | hp'
      · exact hl
      · exact ih (i + 1) hnil p hp'

theorem findIdx_eq_of {α : Type} (P : α → Bool) (l : List α) (n : Nat) (a : α)
    (h1 : l.get? n = some a) (hP : P a = true)
    (h2 : ∀ j, j < n → ∀ b, l.get? j = some b → P b = false) :
    l.findIdx P = n := by
  induction l generalizing n with
  | nil => cases n <;> cases h1
  | cons x xs ih =>
    cases n with
    | zero =>
      cases h1
      rw [List.findIdx_cons, hP]
      rfl
    | succ m =>
      have hx : P x = false := h2 0 (Nat.succ_pos m) x rfl
      rw [List.findIdx_cons, hx]
      show xs.findIdx P + 1 = m + 1
      rw [ih m h1 (fun j hj b hget => h2 (j + 1) (Nat.succ_lt_succ hj) b hget)]

/-- The code's selection (`min(ranked, ...)`) and the spec's selection
agree, step by step, and the surgery positions coincide — provided ranks
are injective (distinct pairs never share a rank), which holds for every
trained or loaded rank table. -/
theorem step_equiv (ranks : List (Pair × Nat))
    (hinj : ∀ p q r, lookupA ranks p = some r → lookupA ranks q = some r → p = q)
    (tokens : List Str) :
    (minByRank (rankedList ranks tokens) = none → specStep ranks tokens = none)
    ∧ (∀ r pos p, minByRank (rankedList ranks tokens) = some (r, pos, p) →
        specStep ranks tokens =
          some (tokens.take pos ++ [p.1 ++ p.2] ++ tokens.drop (pos + 2))) := by
  constructor
  · intro hnone
    rw [minByRank_none_iff, rankedList_eq_aux] at hnone
    have hfil : (adjPairs tokens).filter (fun p => (lookupA ranks p).isSome) = [] := by
      rw [← rankedAux_map_eq_filter ranks (adjPairs tokens) 0, hnone]
      rfl
    rw [specStep, specSelect, hfil]
  · intro r pos p hmin
    rw [rankedList_eq_aux] at hmin
    set ps := adjPairs tokens with hps
    -- decompose the ranked list around the selected minimum
    cases hra : rankedAux ranks 0 ps with
    | nil => rw [hra] at hmin; cases hmin
    | cons y ys =>
      rw [hra] at hmin
      have hx : ys.foldl (fun b z => if z.1 < b.1 then z else b) y = (r, pos, p) :=
        Option.some.inj hmin
      obtain ⟨l1, l2, hdec, hl1, hl2⟩ :=
        foldl_min_by_first' (fun t : Nat × Nat × Pair => t.1) y (r, pos, p) ys hx
      rw [← hra] at hdec
      -- basic facts about the selected entry
      have hxmem : (r, pos, p) ∈ rankedAux ranks 0 ps := by
        rw [hdec]
        exact List.mem_append_right _ (List.mem_cons_self _ _)
      obtain ⟨hlookp, k, hk, hgetp⟩ := rankedAux_mem ranks ps 0 (r, pos, p) hxmem
      simp only at hlookp hk hgetp
      have hk0 : k = pos := by omega
      rw [hk0] at hgetp
      -- the filtered pair list decomposes accordingly
      have hfil : ps.filter (fun q => (lookupA ranks q).isSome) =
          l1.map (fun t => t.2.2) ++ p :: l2.map (fun t => t.2.2) := by
        rw [← rankedAux_map_eq_filter ranks ps 0, hdec]
        simp
      -- every entry of l1 / l2 carries its own rank
      have hrank_of_mem : ∀ t ∈ rankedAux ranks 0 ps,
          lookupA ranks t.2.2 = some t.1 :=
        fun t ht => (rankedAux_mem ranks ps 0 t ht).1
      -- value of the rank key of every filtered pair
      have hval : ∀ z ∈ ps.filter (fun q => (lookupA ranks q).isSome),
          lookupA ranks z = some ((lookupA ranks z).getD 0) ∧
            r ≤ (lookupA ranks z).getD 0 := by
        intro z hz
        rw [hfil] at hz
        rcases List.mem_append.mp hz with hz1 | hz2
        · obtain ⟨t, ht, rfl⟩ := List.mem_map.mp hz1
          have htmem : t ∈ rankedAux ranks 0 ps := by
            rw [hdec]
            exact List.mem_append_left _ ht
          rw [hrank_of_mem t htmem]
          exact ⟨rfl, Nat.le_of_lt (hl1 t ht)⟩
        · rcases List.mem_cons.mp hz2 with rfl | hz3
          · rw [hlookp]
            exact ⟨rfl, Nat.le_refl r⟩
          · obtain ⟨t, ht, rfl⟩ := List.mem_map.mp hz3
            have htmem : t ∈ rankedAux ranks 0 ps := by
              rw [hdec]
              exact List.mem_append_right _ (List.mem_cons_of_mem _ ht)
            rw [hrank_of_mem t htmem]
            exact ⟨rfl, hl2 t ht⟩
      -- identify the spec-side selection
      have hsel : specSelect ranks tokens = some p := by
        rw [specSelect, ← hps]
        cases hF : ps.filter (fun q => (lookupA ranks q).isSome) with
        | nil =>
          rw [hF] at hfil
          cases hcontra : l1.map (fun t => t.2.2) with
          | nil => rw [hcontra] at hfil; cases hfil
          | cons a as => rw [hcontra] at hfil; cases hfil
        | cons q0 qs0 =>
          simp only
          obtain ⟨m1, m2, hdecF, hm1, hm2⟩ :=
            foldl_min_by_first' (fun z => (lookupA ranks z).getD 0) q0
              (qs0.foldl (fun b y =>
                if (lookupA ranks y).getD 0 < (lookupA ranks b).getD 0 then y else b)
                q0) qs0 rfl
          set m := qs0.foldl (fun b y =>
            if (lookupA ranks y).getD 0 < (lookupA ranks b).getD 0 then y else b) q0
            with hmdef
          have hFdec : ps.filter (fun q => (lookupA ranks q).isSome) = m1 ++ m :: m2 := by
            rw [hF, hdecF]
          have hmF : m ∈ ps.filter (fun q => (lookupA ranks q).isSome) := by
            rw [hFdec]
            exact List.mem_append_right _ (List.mem_cons_self _ _)
          have hpF : p ∈ ps.filter (fun q => (lookupA ranks q).isSome) := by
            rw [hfil]
            exact List.mem_append_right _ (List.mem_cons_self _ _)
          obtain ⟨hmlook, hmge⟩ := hval m hmF
          -- locate p in the m-decomposition
          have hple : (lookupA ranks m).getD 0 ≤ r := by
            have hpv : (lookupA ranks p).getD 0 = r := by rw [hlookp]; rfl
            rw [hFdec] at hpF
            rcases List.mem_append.mp hpF with hp1 | hp2
            · exact absurd (hpv ▸ hm1 p hp1) (Nat.not_lt.mpr hmge)
            · rcases List.mem_cons.mp hp2 with rfl | hp3
              · exact Nat.le_of_eq hpv
              · exact hpv ▸ hm2 p hp3
          have hmr : (lookupA ranks m).getD 0 = r := Nat.le_antisymm hple hmge
          have : m = p := hinj m p r (hmr ▸ hmlook) hlookp
          rw [this]
      -- the code's position is the first occurrence of the selected pair
      have hsorted := rankedAux_idx_sorted ranks ps 0
      have hfind : ps.findIdx (fun q => decide (q = p)) = pos := by
        apply findIdx_eq_of _ _ _ p hgetp (by simp)
        intro j hj b hgetb
        by_cases hb : b = p
        · subst hb
          exfalso
          have hbmem : (r, 0 + j, b) ∈ rankedAux ranks 0 ps :=
            rankedAux_of_get ranks ps 0 j b r hgetb hlookp
          rw [Nat.zero_add] at hbmem
          rw [hdec] at hbmem hsorted
          rcases List.mem_append.mp hbmem with hb1 | hb2
          · exact absurd (hl1 (r, j, b) hb1) (Nat.lt_irrefl r)
          · rcases List.mem_cons.mp hb2 with heq | hb3
            · have : j = pos := by
                have := congrArg (fun t => t.2.1) heq
                simpa using this
              omega
            · have hxz := (List.pairwise_cons.mp
                (List.pairwise_append.mp hsorted).2.1).1 (r, j, b) hb3
              simp only at hxz
              omega
        · simp [hb]
      rw [specStep, hsel]
      simp only
      rw [← hps, hfind]

theorem tokenizeLoop_eq_spec (ranks : List (Pair × Nat))
    (hinj : ∀ p q r, lookupA ranks p = some r → lookupA ranks q = some r → p = q) :
    ∀ (fuel : Nat) (tokens : List Str),
      tokenizeLoop ranks fuel tokens = specTokenizeLoop ranks fuel tokens := by
  intro fuel
  induction fuel with
  | zero => intro tokens; rfl
  | succ fuel ih =>
    intro tokens
    rw [tokenizeLoop, specTokenizeLoop]
    cases hmin : minByRank (rankedList ranks tokens) with
    | none =>
      rw [(step_equiv ranks hinj tokens).1 hmin]
    | some x =>
      obtain ⟨r, pos, p⟩ := x
      rw [(step_equiv ranks hinj tokens).2 r pos p hmin]
      exact ih _

theorem minByRank_sel_mem (l : List (Nat × Nat × Pair)) (x : Nat × Nat × Pair)
    (h : minByRank l = some x) : x ∈ l := by
  cases l with
  | nil => cases h
  | cons y ys =>
    have hx := foldl_choice_mem (fun b z => if z.1 < b.1 then z else b)
      (by intro b z; by_cases hc : z.1 < b.1 <;> simp [hc]) y ys
    rw [Option.some.inj h] at hx
    exact hx

theorem minByRank_get (ranks : List (Pair × Nat)) (tokens : List Str)
    (r pos : Nat) (p : Pair)
    (h : minByRank (rankedList ranks tokens) = some (r, pos, p)) :
    (adjPairs tokens).get? pos = some p ∧ lookupA ranks p = some r := by
  rw [rankedList_eq_aux] at h
  have hmem := minByRank_sel_mem _ _ h
  obtain ⟨h1, k, hk, hget⟩ := rankedAux_mem ranks (adjPairs tokens) 0 (r, pos, p) hmem
  simp only at h1 hk hget
  have hk0 : k = pos := by omega
  rw [hk0] at hget
  exact ⟨hget, h1⟩

theorem adjPairs_length (l : List Str) : (adjPairs l).length = l.length - 1 := by
  induction l with
  | nil => rfl
  | cons a tail ih =>
    cases tail with
    | nil => rfl
    | cons b rest =>
      rw [adjPairs]
      simp only [List.length_cons]
      rw [ih]
      simp

theorem length_after_merge (tokens : List Str) (pos : Nat) (m : Str)
    (h : pos + 1 < tokens.length) :
    (tokens.take pos ++ [m] ++ tokens.drop (pos + 2)).length = tokens.length - 1 := by
  rw [List.length_append, List.length_append, List.length_take, List.length_drop,
    Nat.min_eq_left (by omega : pos ≤ tokens.length)]
  simp only [List.length_singleton]
  omega

theorem tokenizeLoop_no_pair (ranks : List (Pair × Nat)) :
    ∀ (fuel : Nat) (tokens : List Str), tokens.length ≤ fuel →
      ∀ p ∈ adjPairs (tokenizeLoop ranks fuel tokens), lookupA ranks p = none := by
  intro fuel
  induction fuel with
  | zero =>
    intro tokens hlen p hp
    have htok : tokens = [] := List.length_eq_zero.mp (Nat.le_zero.mp hlen)
    subst htok
    cases hp
  | succ fuel ih =>
    intro tokens hlen p hp
    rw [tokenizeLoop] at hp
    cases hmin : minByRank (rankedList ranks tokens) with
    | none =>
      rw [hmin] at hp
      rw [minByRank_none_iff, rankedList_eq_aux] at hmin
      exact rankedAux_nil_imp ranks (adjPairs tokens) 0 hmin p hp
    | some x =>
      obtain ⟨r, pos, q⟩ := x
      rw [hmin] at hp
      obtain ⟨hget, hlook⟩ := minByRank_get ranks tokens r pos q hmin
      obtain ⟨hposlt, -⟩ := List.get?_eq_some.mp hget
      rw [adjPairs_length] at hposlt
      have hlen2 : pos + 1 < tokens.length := by omega
      refine ih _ ?_ p hp
      rw [length_after_merge tokens pos _ hlen2]
      omega

theorem lookupA_mem_values {α : Type} [DecidableEq α] (l : List (α × Nat))
    (q : α) (v : Nat) (h : lookupA l q = some v) : v ∈ l.map (·.2) := by
  induction l with
  | nil => cases h
  | cons e rest ih =>
    obtain ⟨k, w⟩ := e
    by_cases hk : q = k
    · rw [lookupA, if_pos hk] at h
      cases h
      exact List.mem_cons_self _ _
    · rw [lookupA, if_neg hk] at h
      exact List.mem_cons_of_mem _ (ih h)

/-- Rank tables whose values are distinct give injective rank lookup. -/
theorem lookupA_values_nodup_inj {α : Type} [DecidableEq α] (l : List (α × Nat))
    (hnd : (l.map (·.2)).Nodup) :
    ∀ (p q : α) (r : Nat), lookupA l p = some r → lookupA l q = some r → p = q := by
  induction l with
  | nil => intro p q r hp; cases hp
  | cons e rest ih =>
    obtain ⟨k, v⟩ := e
    intro p q r hp hq
    rw [List.map_cons, List.nodup_cons] at hnd
    by_cases hpk : p = k <;> by_cases hqk : q = k
    · rw [hpk, hqk]
    · rw [lookupA, if_pos hpk] at hp
      rw [lookupA, if_neg hqk] at hq
      cases hp
      exact absurd (lookupA_mem_values rest q v hq) hnd.1
    · rw [lookupA, if_neg hpk] at hp
      rw [lookupA, if_pos hqk] at hq
      cases hq
      exact absurd (lookupA_mem_values rest p v hp) hnd.1
    · rw [lookupA, if_neg hpk] at hp
      rw [lookupA, if_neg hqk] at hq
      exact ih hnd.2 p q r hp hq

/-- C7: for a trained merge table (injective ranks; empty rank table when
there are no merges), `_tokenize_word` computes exactly the spec-side
reduction — repeatedly replace the leftmost occurrence of the
lowest-ranked adjacent pair present in the table — and its result has no
adjacent pair left in the table. -/
theorem C7_tokenize_word_is_rank_greedy (tk : Tokenizer)
    (hinj : ∀ p q r, lookupA tk.pair_ranks p = some r →
      lookupA tk.pair_ranks q = some r → p = q)
    (hcons : tk.merges = [] → tk.pair_ranks = []) (w : Str) :
    tokenizeWord tk w = specTokenizeWord tk.pair_ranks w ∧
    ∀ p ∈ adjPairs (tokenizeWord tk w), lookupA tk.pair_ranks p = none := by
  have hlen : (w.map (fun c => ([c] : Str)) ++ [endWord]).length = w.length + 1 := by
    simp
  by_cases hm : tk.merges = []
  · have hr := hcons hm
    simp only [tokenizeWord]
    rw [if_pos hm]
    constructor
    · rw [specTokenizeWord]
      have hnone : specStep tk.pair_ranks (w.map (fun c => ([c] : Str)) ++ [endWord])
          = none := by
        rw [specStep, specSelect, hr]
        have hfe : (adjPairs (w.map (fun c => ([c] : Str)) ++ [endWord])).filter
            (fun p => (lookupA ([] : List (Pair × Nat)) p).isSome) = [] := by
          apply List.filter_eq_nil_iff.mpr
          intro p _
          simp [lookupA]
        rw [hfe]
      rw [specTokenizeLoop, hnone]
    · intro p _
      rw [hr]
      rfl
  · simp only [tokenizeWord]
    rw [if_neg hm]
    constructor
    · rw [specTokenizeWord, tokenizeLoop_eq_spec tk.pair_ranks hinj, hlen]
    · exact tokenizeLoop_no_pair tk.pair_ranks _ _ (le_of_eq rfl)

/-- Witness for C7 on the trained tokenizer `tkAB` and the word `"aab"`. -/
theorem C7_witness :
    ((tkAB.pair_ranks.map (·.2)).Nodup ∧ (tkAB.merges = [] → tkAB.pair_ranks = [])) ∧
    tokenizeWord tkAB "aab".data = specTokenizeWord tkAB.pair_ranks "aab".data :=
  ⟨⟨by decide, by decide⟩,
    (C7_tokenize_word_is_rank_greedy tkAB
      (lookupA_values_nodup_inj tkAB.pair_ranks (by decide))
      (by decide) "aab".data).1⟩

/-! ## C1: round trip.  Phase A: normalization facts about
`_process_clean`'s whitespace stage and `str.split`. -/

theorem pyStrip_eq_stripTrail_dropWhile (l : Str) :
    pyStrip l = stripTrail (l.dropWhile pyIsSpace) := rfl

theorem collapseWs_cons_nonspace (c : Char) (cs : Str) (hc : pyIsSpace c = false) :
    ∃ t, collapseWs (c :: cs) = c :: t := by
  cases cs with
  | nil => exact ⟨[], by simp [collapseWs, hc]⟩
  | cons d ds => exact ⟨collapseWs (d :: ds), by simp [collapseWs, hc]⟩

theorem normCW_collapseWs (l : Str) : normCW (collapseWs l) = true := by
  induction l with
  | nil => rfl
  | cons c cs ih =>
    cases cs with
    | nil =>
      by_cases hc : pyIsSpace c = true <;> simp [collapseWs, normCW, hc]
    | cons d ds =>
      by_cases hc : pyIsSpace c = true
      · by_cases hd : pyIsSpace d = true
        · rw [collapseWs]
          simp only [hc, if_true, hd]
          exact ih
        · rw [collapseWs]
          simp only [hc, if_true, hd, Bool.false_eq_true, if_false]
          obtain ⟨t, ht⟩ := collapseWs_cons_nonspace d ds (by simpa using hd)
          rw [ht] at ih ⊢
          rw [normCW]
          simp only [ih, Bool.and_true]
          simp [hd]
      · rw [collapseWs]
        simp only [hc, Bool.false_eq_true, if_false]
        cases hcol : collapseWs (d :: ds) with
        | nil => simp [normCW, hc]
        | cons e t =>
          rw [hcol] at ih
          rw [normCW]
          simp only [ih, Bool.and_true]
          simp [hc]

theorem normCW_tail (c : Char) (cs : Str) (h : normCW (c :: cs) = true) :
    normCW cs = true := by
  cases cs with
  | nil => rfl
  | cons d ds =>
    rw [normCW, Bool.and_eq_true] at h
    exact h.2

theorem normCW_dropWhile (l : Str) (h : normCW l = true) :
    normCW (l.dropWhile pyIsSpace) = true := by
  induction l with
  | nil => exact h
  | cons c cs ih =>
    by_cases hc : pyIsSpace c = true
    · rw [List.dropWhile_cons_of_pos hc]
      exact ih (normCW_tail c cs h)
    · rw [List.dropWhile_cons_of_neg (by simpa using hc)]
      exact h

theorem normCW_append_left (x y : Str) (h : normCW (x ++ y) = true) :
    normCW x = true := by
  induction x with
  | nil => rfl
  | cons c cs ih =>
    cases cs with
    | nil =>
      cases y with
      | nil => exact h
      | cons d ds =>
        rw [List.cons_append, List.nil_append, normCW, Bool.and_eq_true] at h
        rw [normCW]
        have h1or := h.1
        rw [Bool.or_eq_true] at h1or
        rcases h1or with h1 | h1
        · simp [h1]
        · rw [Bool.and_eq_true] at h1
          simp [h1.1]
    | cons e es =>
      rw [List.cons_append, List.cons_append, normCW, Bool.and_eq_true] at h
      rw [normCW, Bool.and_eq_true]
      exact ⟨h.1, ih (by rw [List.cons_append]; exact h.2)⟩

theorem normTail_of_normCW (l : Str) (h : normCW l = true)
    (hlast : ∀ c, l.getLast? = some c → pyIsSpace c = false) :
    normTail l = true := by
  induction l with
  | nil => rfl
  | cons c cs ih =>
    cases cs with
    | nil =>
      rw [normTail]
      have := hlast c (by rfl)
      simp [this]
    | cons d ds =>
      rw [normTail, Bool.and_eq_true]
      rw [normCW, Bool.and_eq_true] at h
      refine ⟨h.1, ?_⟩
      refine ih h.2 ?_
      intro e he
      exact hlast e (by rw [List.getLast?_cons_cons]; exact he)

theorem dropWhile_head_not {α : Type} (p : α → Bool) (l : List α) (c : α)
    (cs : List α) (h : l.dropWhile p = c :: cs) : p c = false := by
  induction l with
  | nil => cases h
  | cons x xs ih =>
    by_cases hx : p x = true
    · rw [List.dropWhile_cons_of_pos hx] at h
      exact ih h
    · rw [List.dropWhile_cons_of_neg (by simpa using hx)] at h
      cases h
      simpa using hx

theorem stripTrail_prefix (l : Str) : ∃ r, l = stripTrail l ++ r := by
  refine ⟨(l.reverse.takeWhile pyIsSpace).reverse, ?_⟩
  rw [stripTrail]
  have h := @List.takeWhile_append_dropWhile Char pyIsSpace l.reverse
  calc l = l.reverse.reverse := by rw [List.reverse_reverse]
    _ = (l.reverse.takeWhile pyIsSpace ++ l.reverse.dropWhile pyIsSpace).reverse := by
        rw [h]
    _ = (l.reverse.dropWhile pyIsSpace).reverse ++
        (l.reverse.takeWhile pyIsSpace).reverse := by rw [List.reverse_append]

theorem stripTrail_getLast (l : Str) (c : Char)
    (h : (stripTrail l).getLast? = some c) : pyIsSpace c = false := by
  rw [stripTrail] at h
  rw [List.getLast?_reverse] at h
  cases hd : l.reverse.dropWhile pyIsSpace with
  | nil => rw [hd] at h; cases h
  | cons x xs =>
    rw [hd] at h
    cases h
    exact dropWhile_head_not pyIsSpace l.reverse c xs hd

theorem normTail_pyStrip (l : Str) (h : normCW l = true) :
    normTail (pyStrip l) = true := by
  rw [pyStrip_eq_stripTrail_dropWhile]
  have h1 : normCW (l.dropWhile pyIsSpace) = true := normCW_dropWhile l h
  obtain ⟨r, hr⟩ := stripTrail_prefix (l.dropWhile pyIsSpace)
  refine normTail_of_normCW _ ?_ ?_
  · exact normCW_append_left _ r (by rw [← hr]; exact h1)
  · intro c hc
    exact stripTrail_getLast _ c hc

theorem pyStrip_head_not_space (l : Str) (c : Char) (cs : Str)
    (h : pyStrip l = c :: cs) : pyIsSpace c = false := by
  rw [pyStrip_eq_stripTrail_dropWhile] at h
  obtain ⟨r, hr⟩ := stripTrail_prefix (l.dropWhile pyIsSpace)
  rw [h] at hr
  exact dropWhile_head_not pyIsSpace l c (cs ++ r) (by rw [hr, List.cons_append])

theorem wordsJoin_cons (w : Str) (ws : List Str) :
    wordsJoin (w :: ws) = w ++ [' '] ++ wordsJoin ws := by
  rw [wordsJoin, List.map_cons, List.flatten_cons, wordsJoin, List.append_assoc]

theorem dropWhile_append_singleton (p : Char → Bool) (xs : Str) (a : Char)
    (ha : p a = false) :
    (xs ++ [a]).dropWhile p =
      (match xs.dropWhile p with
        | [] => [a]
        | y :: ys => y :: ys ++ [a]) := by
  induction xs with
  | nil => simp [List.dropWhile, ha]
  | cons x xs ih =>
    by_cases hx : p x = true
    · rw [List.cons_append, List.dropWhile_cons_of_pos hx,
        List.dropWhile_cons_of_pos hx, ih]
    · rw [List.cons_append, List.dropWhile_cons_of_neg (by simpa using hx),
        List.dropWhile_cons_of_neg (by simpa using hx)]
      rfl

theorem stripTrail_cons_nonspace (c : Char) (z : Str) (hc : pyIsSpace c = false) :
    stripTrail (c :: z) = c :: stripTrail z := by
  rw [stripTrail, stripTrail, List.reverse_cons,
    dropWhile_append_singleton pyIsSpace z.reverse c hc]
  cases hd : z.reverse.dropWhile pyIsSpace with
  | nil => simp
  | cons y ys => simp

theorem stripTrail_append_space (z : Str) : stripTrail (z ++ [' ']) = stripTrail z := by
  rw [stripTrail, stripTrail, List.reverse_append]
  rfl

theorem pyStrip_cons_space (c : Char) (z : Str) (hc : pyIsSpace c = true) :
    pyStrip (c :: z) = pyStrip z := by
  rw [pyStrip, pyStrip, List.dropWhile_cons_of_pos hc]

theorem pyStrip_cons_nonspace (c : Char) (z : Str) (hc : pyIsSpace c = false) :
    pyStrip (c :: z) = c :: stripTrail z := by
  rw [pyStrip_eq_stripTrail_dropWhile,
    List.dropWhile_cons_of_neg (by simp [hc]),
    stripTrail_cons_nonspace c z hc]

theorem pyStrip_append_space (x : Str) : pyStrip (x ++ [' ']) = pyStrip x := by
  induction x with
  | nil => rfl
  | cons c cs ih =>
    by_cases hc : pyIsSpace c = true
    · rw [List.cons_append, pyStrip_cons_space c _ hc, pyStrip_cons_space c _ hc, ih]
    · rw [List.cons_append,
        pyStrip_cons_nonspace c _ (by simpa using hc),
        pyStrip_cons_nonspace c _ (by simpa using hc),
        stripTrail_append_space]

theorem pyStrip_fix (l : Str)
    (hh : ∀ c cs, l = c :: cs → pyIsSpace c = false)
    (hl : ∀ c, l.getLast? = some c → pyIsSpace c = false) : pyStrip l = l := by
  cases l with
  | nil => rfl
  | cons c cs =>
    rw [pyStrip_cons_nonspace c cs (hh c cs rfl), stripTrail]
    cases hrev : cs.reverse with
    | nil =>
      have : cs = [] := by
        have := congrArg List.reverse hrev
        simpa using this
      subst this
      rfl
    | cons d ds =>
      have hd : pyIsSpace d = false := by
        apply hl d
        rw [← List.head?_reverse, List.reverse_cons, hrev]
        rfl
      rw [List.dropWhile_cons_of_neg (by simp [hd])]
      rw [← hrev]
      rw [List.reverse_reverse]

theorem pyStrip_getLast_not_space (l : Str) (c : Char)
    (h : (pyStrip l).getLast? = some c) : pyIsSpace c = false :=
  stripTrail_getLast _ c (by rw [← pyStrip_eq_stripTrail_dropWhile]; exact h)

theorem pyStrip_idem (l : Str) : pyStrip (pyStrip l) = pyStrip l :=
  pyStrip_fix (pyStrip l)
    (fun c cs h => pyStrip_head_not_space l c cs h)
    (fun c h => pyStrip_getLast_not_space l c h)

/-- Splitting a normalized string and rejoining each word with a single
trailing space reproduces the string plus one trailing space. -/
theorem wordsJoin_pySplitAux :
    ∀ (m acc : Str), normTail m = true →
      (acc = [] → ∀ c cs, m = c :: cs → pyIsSpace c = false) →
      wordsJoin (pySplitAux m acc) =
        (if m = [] ∧ acc = [] then [] else acc.reverse ++ m ++ [' ']) := by
  intro m
  induction m with
  | nil =>
    intro acc _ _
    by_cases hacc : acc = []
    · subst hacc
      rfl
    · rw [pySplitAux, if_neg hacc, if_neg (by simp [hacc])]
      rw [wordsJoin]
      simp
  | cons c m' ih =>
    intro acc hnt hlead
    rw [pySplitAux]
    by_cases hc : pyIsSpace c = true
    · have hacc : ¬(acc = []) := by
        intro h0
        have := hlead h0 c m' rfl
        rw [hc] at this
        cases this
      rw [if_pos hc, if_neg hacc]
      cases m' with
      | nil =>
        exfalso
        rw [normTail, hc] at hnt
        cases hnt
      | cons d ds =>
        rw [normTail, Bool.and_eq_true] at hnt
        have hcd := hnt.1
        rw [hc] at hcd
        simp only [Bool.not_true, Bool.false_or, Bool.and_eq_true,
          decide_eq_true_eq, Bool.not_eq_true'] at hcd
        obtain ⟨hcsp, hdns⟩ := hcd
        rw [wordsJoin_cons,
          ih [] hnt.2 (fun _ e es he => by
            injection he with h1 h2
            rw [← h1]
            exact hdns)]
        rw [if_neg (by simp), if_neg (by simp [hacc])]
        rw [hcsp]
        simp
    · rw [if_neg hc]
      rw [ih (c :: acc)
        (by
          cases m' with
          | nil => rfl
          | cons d ds =>
            rw [normTail, Bool.and_eq_true] at hnt
            exact hnt.2)
        (fun h0 => by cases h0)]
      rw [if_neg (by simp), if_neg (by simp)]
      simp

/-- Words produced by `str.split` are non-empty, whitespace-free, and made
of characters of the input. -/
theorem pySplitAux_words (l : Str) :
    ∀ (acc : Str), (∀ c ∈ acc, pyIsSpace c = false) →
      ∀ w ∈ pySplitAux l acc, w ≠ [] ∧
        ∀ c ∈ w, pyIsSpace c = false ∧ (c ∈ l ∨ c ∈ acc) := by
  induction l with
  | nil =>
    intro acc hacc w hw
    rw [pySplitAux] at hw
    by_cases h0 : acc = []
    · rw [if_pos h0] at hw
      cases hw
    · rw [if_neg h0] at hw
      rcases List.mem_singleton.mp hw with rfl
      refine ⟨by simpa using h0, ?_⟩
      intro c hc
      rw [List.mem_reverse] at hc
      exact ⟨hacc c hc, Or.inr hc⟩
  | cons x xs ih =>
    intro acc hacc w hw
    rw [pySplitAux] at hw
    by_cases hx : pyIsSpace x = true
    · rw [if_pos hx] at hw
      by_cases h0 : acc = []
      · rw [if_pos h0] at hw
        obtain ⟨hne, hall⟩ := ih [] (fun c hc => by cases hc) w hw
        refine ⟨hne, fun c hc => ?_⟩
        obtain ⟨h1, h2⟩ := hall c hc
        rcases h2 with h2 | h2
        · exact ⟨h1, Or.inl (List.mem_cons_of_mem _ h2)⟩
        · cases h2
      · rw [if_neg h0] at hw
        rcases List.mem_cons.mp hw with rfl | hw'
        · refine ⟨by simpa using h0, ?_⟩
          intro c hc
          rw [List.mem_reverse] at hc
          exact ⟨hacc c hc, Or.inr hc⟩
        · obtain ⟨hne, hall⟩ := ih [] (fun c hc => by cases hc) w hw'
          refine ⟨hne, fun c hc => ?_⟩
          obtain ⟨h1, h2⟩ := hall c hc
          rcases h2 with h2 | h2
          · exact ⟨h1, Or.inl (List.mem_cons_of_mem _ h2)⟩
          · cases h2
    · rw [if_neg hx] at hw
      obtain ⟨hne, hall⟩ := ih (x :: acc)
        (by
          intro c hc
          rcases List.mem_cons.mp hc with rfl | hc'
          · simpa using hx
          · exact hacc c hc') w hw
      refine ⟨hne, fun c hc => ?_⟩
      obtain ⟨h1, h2⟩ := hall c hc
      rcases h2 with h2 | h2
      · exact ⟨h1, Or.inl (List.mem_cons_of_mem _ h2)⟩
      · rcases List.mem_cons.mp h2 with rfl | h2'
        · exact ⟨h1, Or.inl (List.mem_cons_self _ _)⟩
        · exact ⟨h1, Or.inr h2'⟩

/-- The key normalization identity: stripping the decode-side rejoin of the
split of a cleaned string gives back the cleaned string. -/
theorem wordsJoin_pySplit_clean (u : Str) :
    pyStrip (wordsJoin (pySplit (pyStrip (collapseWs u)))) =
      pyStrip (collapseWs u) := by
  have hnt : normTail (pyStrip (collapseWs u)) = true :=
    normTail_pyStrip _ (normCW_collapseWs u)
  have hJ := wordsJoin_pySplitAux (pyStrip (collapseWs u)) [] hnt
    (fun _ c cs h => pyStrip_head_not_space _ c cs h)
  rw [pySplit, hJ]
  by_cases hm0 : pyStrip (collapseWs u) = []
  · rw [if_pos (by simp [hm0])]
    rw [hm0]
    rfl
  · rw [if_neg (by simp [hm0])]
    rw [List.reverse_nil, List.nil_append, pyStrip_append_space, pyStrip_idem]

/-! ### Phase B: shape of the trained vocabulary -/

theorem idChainB_snoc (rest : List (Str × Nat)) (s : Str) :
    ∀ (lo n : Nat), idChainB lo n rest = true → lo ≤ n →
      idChainB lo (n + 1) (rest ++ [(s, n)]) = true := by
  induction rest with
  | nil =>
    intro lo n _ hlon
    simp [idChainB, hlon]
  | cons e r ih =>
    intro lo n hch hlon
    rw [idChainB, Bool.and_eq_true, Bool.and_eq_true] at hch
    obtain ⟨⟨h1, h2⟩, h3⟩ := hch
    rw [decide_eq_true_eq] at h1 h2
    rw [List.cons_append, idChainB, Bool.and_eq_true, Bool.and_eq_true]
    refine ⟨⟨by rw [decide_eq_true_eq]; omega, by rw [decide_eq_true_eq]; omega⟩, ?_⟩
    exact ih (e.2 + 1) n h3 (by omega)

theorem idChainB_facts (rest : List (Str × Nat)) :
    ∀ (lo n : Nat), idChainB lo n rest = true →
      (∀ e ∈ rest, lo ≤ e.2 ∧ e.2 < n) ∧ (rest.map (·.2)).Nodup := by
  induction rest with
  | nil => intro lo n _; exact ⟨fun e he => absurd he (List.not_mem_nil e), List.nodup_nil⟩
  | cons e r ih =>
    intro lo n hch
    rw [idChainB, Bool.and_eq_true, Bool.and_eq_true] at hch
    obtain ⟨⟨h1, h2⟩, h3⟩ := hch
    rw [decide_eq_true_eq] at h1 h2
    obtain ⟨hb, hnd⟩ := ih (e.2 + 1) n h3
    constructor
    · intro f hf
      rcases List.mem_cons.mp hf with rfl | hf'
      · exact ⟨h1, h2⟩
      · obtain ⟨hb1, hb2⟩ := hb f hf'
        exact ⟨by omega, hb2⟩
    · rw [List.map_cons, List.nodup_cons]
      refine ⟨?_, hnd⟩
      intro hmem
      obtain ⟨f, hf, hfe⟩ := List.mem_map.mp hmem
      have := (hb f hf).1
      omega

theorem containsA_append_left {α β : Type} [DecidableEq α]
    (l m : List (α × β)) (k : α) (h : containsA l k = true) :
    containsA (l ++ m) k = true := by
  rw [containsA, lookupA_append]
  rw [containsA] at h
  cases hl : lookupA l k with
  | none => rw [hl] at h; cases h
  | some v => rfl

theorem containsA_append_self {α β : Type} [DecidableEq α]
    (l : List (α × β)) (k : α) (v : β) :
    containsA (l ++ [(k, v)]) k = true := by
  rw [containsA, lookupA_append]
  cases hl : lookupA l k with
  | none => simp [lookupA]
  | some w => rfl

theorem addCorpusChar_extends (t : Tokenizer) (c : Char) :
    ∃ ext, (addCorpusChar t c).vocab = t.vocab ++ ext := by
  rw [addCorpusChar]
  split
  · exact ⟨[([c], t.next_token_id)], rfl⟩
  · exact ⟨[], by simp⟩

theorem foldl_addCorpusChar_extends (cs : List Char) (t : Tokenizer) :
    ∃ ext, (cs.foldl addCorpusChar t).vocab = t.vocab ++ ext := by
  induction cs generalizing t with
  | nil => exact ⟨[], by simp⟩
  | cons c cs ih =>
    rw [List.foldl_cons]
    obtain ⟨e1, he1⟩ := addCorpusChar_extends t c
    obtain ⟨e2, he2⟩ := ih (addCorpusChar t c)
    exact ⟨e1 ++ e2, by rw [he2, he1, List.append_assoc]⟩

theorem addCorpusChar_shape (t : Tokenizer) (c : Char)
    (h : vocabShape t) : vocabShape (addCorpusChar t c) := by
  obtain ⟨h6, rest, hv, hch⟩ := h
  rw [addCorpusChar]
  split
  · refine ⟨by simp; omega, rest ++ [([c], t.next_token_id)], ?_, ?_⟩
    · simp only [hv, List.append_assoc]
    · exact idChainB_snoc rest [c] 6 t.next_token_id hch h6
  · exact ⟨h6, rest, hv, hch⟩

theorem foldl_addCorpusChar_shape (cs : List Char) (t : Tokenizer)
    (h : vocabShape t) : vocabShape (cs.foldl addCorpusChar t) := by
  induction cs generalizing t with
  | nil => exact h
  | cons c cs ih => exact ih _ (addCorpusChar_shape t c h)

theorem mem_insertChar (x c : Char) (l : List Char) :
    x ∈ insertChar c l ↔ x = c ∨ x ∈ l := by
  induction l with
  | nil => simp [insertChar]
  | cons d ds ih =>
    rw [insertChar]
    by_cases h1 : c.val < d.val
    · simp [h1]
    · rw [if_neg h1]
      by_cases h2 : c.val = d.val
      · rw [if_pos h2]
        have hcd : c = d := Char.ext h2
        subst hcd
        constructor
        · intro hx; exact Or.inr hx
        · intro hx; rcases hx with rfl | hx
          · exact List.mem_cons_self _ _
          · exact hx
      · rw [if_neg h2]
        rw [List.mem_cons, List.mem_cons, ih]
        tauto

theorem mem_sortedSet (c : Char) (l : Str) (h : c ∈ l) : c ∈ sortedSet l := by
  induction l with
  | nil => cases h
  | cons d ds ih =>
    rw [sortedSet, List.foldr_cons]
    rcases List.mem_cons.mp h with rfl | h'
    · exact (mem_insertChar c c _).mpr (Or.inl rfl)
    · exact (mem_insertChar c d _).mpr (Or.inr (ih h'))

theorem foldl_addCorpusChar_covers (cs : List Char) (t : Tokenizer) :
    ∀ c ∈ cs, pyIsSpace c = false →
      containsA ((cs.foldl addCorpusChar t).vocab) [c] = true := by
  induction cs generalizing t with
  | nil => intro c hc; cases hc
  | cons d ds ih =>
    intro c hc hsp
    rw [List.foldl_cons]
    rcases List.mem_cons.mp hc with rfl | hc'
    · obtain ⟨ext, hext⟩ := foldl_addCorpusChar_extends ds (addCorpusChar t c)
      rw [hext]
      apply containsA_append_left
      rw [addCorpusChar]
      split
      · exact containsA_append_self _ _ _
      · rename_i hcond
        rw [Bool.and_eq_true] at hcond

        by_cases hctn : containsA t.vocab [c] = true
        · exact hctn
        · exfalso
          apply hcond
          constructor
          · simpa using hsp
          · simpa using hctn
    · exact ih _ c hc' hsp

/-- On a fresh tokenizer, initialization yields exactly the special block,
then the end-of-word marker with id 6, then the corpus characters. -/
theorem initializeVocab_fresh (vs mf : Nat) (text : Str) :
    initializeVocab (Tokenizer.init vs mf) text =
      (sortedSet text).foldl addCorpusChar
        { vocab_size := vs, min_frequency := mf,
          vocab := specialTokens ++ [(endWord, 6)],
          merges := [], pair_ranks := [], next_token_id := 7 } := by
  rfl

theorem initializeVocab_fresh_shape (vs mf : Nat) (text : Str) :
    vocabShape (initializeVocab (Tokenizer.init vs mf) text) := by
  rw [initializeVocab_fresh]
  apply foldl_addCorpusChar_shape
  refine ⟨?_, [(endWord, 6)], rfl, ?_⟩
  · show 6 ≤ 7
    omega
  · show idChainB 6 7 [(endWord, 6)] = true
    decide

theorem initializeVocab_fresh_endword (vs mf : Nat) (text : Str) :
    containsA (initializeVocab (Tokenizer.init vs mf) text).vocab endWord = true := by
  rw [initializeVocab_fresh]
  obtain ⟨ext, hext⟩ := foldl_addCorpusChar_extends (sortedSet text)
    { vocab_size := vs, min_frequency := mf,
      vocab := specialTokens ++ [(endWord, 6)],
      merges := [], pair_ranks := [], next_token_id := 7 }
  rw [hext]
  apply containsA_append_left
  exact containsA_append_self specialTokens endWord 6

theorem initializeVocab_fresh_covers (vs mf : Nat) (text : Str) :
    ∀ c ∈ text, pyIsSpace c = false →
      containsA (initializeVocab (Tokenizer.init vs mf) text).vocab [c] = true := by
  intro c hc hsp
  rw [initializeVocab_fresh]
  exact foldl_addCorpusChar_covers (sortedSet text) _ c (mem_sortedSet c text hc) hsp

theorem trainLoop_contains_mono (k : Str) :
    ∀ (fuel : Nat) (tk : Tokenizer) (vw : List (List Str × Nat)),
      containsA tk.vocab k = true →
      containsA (trainLoop fuel tk vw).vocab k = true := by
  intro fuel
  induction fuel with
  | zero => intro tk vw h; exact h
  | succ fuel ih =>
    intro tk vw h
    rw [trainLoop]
    by_cases hlt : tk.vocab.length < tk.vocab_size
    · rw [if_pos hlt]
      cases hmax : maxByVal (getStats vw) with
      | none => exact h
      | some x =>
        obtain ⟨bp, bf⟩ := x
        simp only
        by_cases hmf : bf < tk.min_frequency
        · rw [if_pos hmf]; exact h
        · rw [if_neg hmf]
          apply ih
          by_cases hcv : containsA tk.vocab (bp.1 ++ bp.2) = true
          · simp only [hcv, if_true]
            exact h
          · simp only [hcv, Bool.false_eq_true, if_false]
            exact containsA_append_left _ _ _ h
    · rw [if_neg hlt]; exact h

theorem trainLoop_inv (fuel : Nat) (tk : Tokenizer) (vw : List (List Str × Nat))
    (h1 : vocabShape tk) (h2 : ranksOk tk) :
    vocabShape (trainLoop fuel tk vw) ∧ ranksOk (trainLoop fuel tk vw) := by
  induction fuel generalizing tk vw with
  | zero => exact ⟨h1, h2⟩
  | succ fuel ih =>
    rw [trainLoop]
    by_cases hlt : tk.vocab.length < tk.vocab_size
    · rw [if_pos hlt]
      cases hmax : maxByVal (getStats vw) with
      | none => exact ⟨h1, h2⟩
      | some x =>
        obtain ⟨bp, bf⟩ := x
        simp only
        by_cases hmf : bf < tk.min_frequency
        · rw [if_pos hmf]; exact ⟨h1, h2⟩
        · rw [if_neg hmf]
          have hbp := maxByVal_getStats_ok vw bp bf hmax
          by_cases hcv : containsA tk.vocab (bp.1 ++ bp.2) = true
          · simp only [hcv, if_true]
            apply ih
            · exact h1
            · intro p hp
              have hp' : (lookupA (dictSet tk.pair_ranks bp tk.merges.length) p).isSome
                  = true := hp
              by_cases hpbp : p = bp
              · subst hpbp
                exact ⟨hcv, hbp⟩
              · rw [lookupA_dictSet_ne _ _ _ _ hpbp] at hp'
                exact h2 p hp'
          · simp only [hcv, Bool.false_eq_true, if_false]
            apply ih
            · obtain ⟨h6, rest, hv, hch⟩ := h1
              refine ⟨?_, rest ++ [(bp.1 ++ bp.2, tk.next_token_id)], ?_, ?_⟩
              · show 6 ≤ tk.next_token_id + 1
                omega
              · show tk.vocab ++ [(bp.1 ++ bp.2, tk.next_token_id)] =
                  specialTokens ++ (rest ++ [(bp.1 ++ bp.2, tk.next_token_id)])
                rw [hv, List.append_assoc]
              · show idChainB 6 (tk.next_token_id + 1)
                  (rest ++ [(bp.1 ++ bp.2, tk.next_token_id)]) = true
                exact idChainB_snoc rest _ 6 tk.next_token_id hch h6
            · intro p hp
              have hp' : (lookupA (dictSet tk.pair_ranks bp tk.merges.length) p).isSome
                  = true := hp
              by_cases hpbp : p = bp
              · subst hpbp
                refine ⟨?_, hbp⟩
                show containsA (tk.vocab ++ [(p.1 ++ p.2, tk.next_token_id)])
                  (p.1 ++ p.2) = true
                exact containsA_append_self _ _ _
              · rw [lookupA_dictSet_ne _ _ _ _ hpbp] at hp'
                obtain ⟨hcq, hbq⟩ := h2 p hp'
                refine ⟨?_, hbq⟩
                show containsA (tk.vocab ++ [(bp.1 ++ bp.2, tk.next_token_id)])
                  (p.1 ++ p.2) = true
                exact containsA_append_left _ _ _ hcq
    · rw [if_neg hlt]; exact ⟨h1, h2⟩

/-- Combined invariants of a trained tokenizer (non-degenerate corpus). -/
theorem train_inv (vs mf : Nat) (corpus : Str) (hc1 : ¬(corpus = []))
    (hc2 : ¬(processClean corpus = [])) :
    vocabShape (train (Tokenizer.init vs mf) corpus) ∧
    ranksOk (train (Tokenizer.init vs mf) corpus) ∧
    containsA (train (Tokenizer.init vs mf) corpus).vocab endWord = true ∧
    ∀ c ∈ processClean corpus, pyIsSpace c = false →
      containsA (train (Tokenizer.init vs mf) corpus).vocab [c] = true := by
  unfold train
  rw [if_neg hc1, if_neg hc2]
  have hrk : ranksOk (initializeVocab (Tokenizer.init vs mf) (processClean corpus)) := by
    intro p hp
    rw [initializeVocab_pair_ranks] at hp
    cases hp
  obtain ⟨hs, hr⟩ := trainLoop_inv
    (totalSyms (buildWordFreqs (pySplit (processClean corpus))) + 1)
    (initializeVocab (Tokenizer.init vs mf) (processClean corpus))
    (buildWordFreqs (pySplit (processClean corpus)))
    (initializeVocab_fresh_shape vs mf (processClean corpus)) hrk
  refine ⟨hs, hr, ?_, ?_⟩
  · exact trainLoop_contains_mono endWord _ _ _
      (initializeVocab_fresh_endword vs mf _)
  · intro c hc hsp
    exact trainLoop_contains_mono [c] _ _ _
      (initializeVocab_fresh_covers vs mf _ c hc hsp)

/-! ### Phase C: decoding a learned id recovers its token -/

theorem lookupA_specials_none (t : Str)
    (h1 : t ≠ endoftextS) (h2 : t ≠ paddingS) (h3 : t ≠ startoftextS)
    (h4 : t ≠ unkS) (h5 : t ≠ maskS) :
    lookupA specialTokens t = none := by
  rw [specialTokens, lookupA, if_neg h1, lookupA, if_neg h2, lookupA, if_neg h3,
    lookupA, if_neg h4, lookupA, if_neg h5, lookupA]

theorem no_lt_specials_none (t : Str) (h : '<' ∉ t) :
    lookupA specialTokens t = none := by
  refine lookupA_specials_none t ?_ ?_ ?_ ?_ ?_ <;>
    (intro he; subst he; exact h (by decide))

theorem endWord_specials_none : lookupA specialTokens endWord = none := by
  refine lookupA_specials_none endWord ?_ ?_ ?_ ?_ ?_ <;> decide

theorem revLookup_none_of_not_mem :
    ∀ (l : List (Str × Nat)) (i : Nat), i ∉ l.map (·.2) → revLookup l i = none := by
  intro l
  induction l with
  | nil => intro i _; rfl
  | cons e r ih =>
    intro i hm
    rw [List.map_cons] at hm
    have h1 : ¬(e.2 = i) := by
      intro h
      exact hm (by rw [← h]; exact List.mem_cons_self _ _)
    have h2 : i ∉ r.map (·.2) := fun h => hm (List.mem_cons_of_mem _ h)
    rw [revLookup, List.foldl_cons, if_neg h1]
    exact ih i h2

theorem revLookup_specials_none (i : Nat) (h : 6 ≤ i) :
    revLookup specialTokens i = none := by
  apply revLookup_none_of_not_mem
  intro hm
  simp [specialTokens] at hm
  omega

theorem revLookup_foldl_acc (i : Nat) :
    ∀ (l : List (Str × Nat)) (acc : Option Str),
      l.foldl (fun a p => if p.2 = i then some p.1 else a) acc
        = match l.foldl (fun a p => if p.2 = i then some p.1 else a) none with
          | some t => some t
          | none => acc := by
  intro l
  induction l with
  | nil => intro acc; rfl
  | cons e r ih =>
    intro acc
    rw [List.foldl_cons, List.foldl_cons]
    by_cases he : e.2 = i
    · rw [if_pos he, if_pos he, ih (some e.1)]
      cases r.foldl (fun a p => if p.2 = i then some p.1 else a) none with
      | some t => rfl
      | none => rfl
    · rw [if_neg he, if_neg he]
      exact ih acc

theorem revLookup_append (l m : List (Str × Nat)) (i : Nat) :
    revLookup (l ++ m) i
      = match revLookup m i with
        | some t => some t
        | none => revLookup l i := by
  rw [revLookup, List.foldl_append]
  exact revLookup_foldl_acc i m
    (l.foldl (fun a p => if p.2 = i then some p.1 else a) none)

theorem revLookup_cons_eq (k : Str) (v : Nat) (r : List (Str × Nat)) (i : Nat) :
    revLookup ((k, v) :: r) i
      = match revLookup r i with
        | some u => some u
        | none => if v = i then some k else none := by
  have h := revLookup_append [(k, v)] r i
  rw [List.singleton_append] at h
  rw [h]
  cases revLookup r i with
  | some u => rfl
  | none => rfl

/-- Reverse lookup is a section of forward lookup when the ids are distinct. -/
theorem revLookup_of_lookupA_nodup :
    ∀ (l : List (Str × Nat)), (l.map (·.2)).Nodup →
      ∀ (t : Str) (i : Nat), lookupA l t = some i → revLookup l i = some t := by
  intro l
  induction l with
  | nil => intro _ t i h; cases h
  | cons e r ih =>
    obtain ⟨k, v⟩ := e
    intro hnd t i hl
    rw [List.map_cons, List.nodup_cons] at hnd
    rw [revLookup_cons_eq]
    by_cases htk : t = k
    · rw [lookupA, if_pos htk] at hl
      have hv : v = i := Option.some.inj hl
      have hrnone : revLookup r i = none := by
        apply revLookup_none_of_not_mem
        rw [← hv]
        exact hnd.1
      rw [hrnone, if_pos hv, htk]
    · rw [lookupA, if_neg htk] at hl
      rw [ih hnd.2 t i hl]

theorem lookupA_vocab_ge6 (tk : Tokenizer) (hs : vocabShape tk) (t : Str) (i : Nat)
    (hsp : lookupA specialTokens t = none)
    (hl : lookupA tk.vocab t = some i) : 6 ≤ i := by
  obtain ⟨hn, rest, hv, hch⟩ := hs
  rw [hv, lookupA_append, hsp] at hl
  have hmem := lookupA_mem_values rest t i hl
  obtain ⟨e, he, he2⟩ := List.mem_map.mp hmem
  have := ((idChainB_facts rest 6 tk.next_token_id hch).1 e he).1
  omega

/-- A non-special token's id decodes back to that token under the trained
vocabulary shape. -/
theorem idToToken_learned (tk : Tokenizer) (hs : vocabShape tk) (t : Str) (i : Nat)
    (hsp : lookupA specialTokens t = none)
    (hl : lookupA tk.vocab t = some i) : idToToken tk i = some t ∧ 6 ≤ i := by
  have hi : 6 ≤ i := lookupA_vocab_ge6 tk hs t i hsp hl
  refine ⟨?_, hi⟩
  obtain ⟨hn, rest, hv, hch⟩ := hs
  have hnd : (rest.map (·.2)).Nodup := (idChainB_facts rest 6 tk.next_token_id hch).2
  have hlr : lookupA rest t = some i := by
    rw [hv, lookupA_append, hsp] at hl
    exact hl
  have hrr : revLookup rest i = some t := revLookup_of_lookupA_nodup rest hnd t i hlr
  simp only [idToToken]
  rw [revLookup_specials_none i hi, hv, revLookup_append, hrr]

/-! ### Phase D: the merge loop keeps the word's body intact -/

theorem adjPairs_get (l : List Str) :
    ∀ (pos : Nat) (p : Pair), (adjPairs l).get? pos = some p →
      l.get? pos = some p.1 ∧ l.get? (pos + 1) = some p.2 := by
  induction l with
  | nil => intro pos p h; cases h
  | cons a tail ih =>
    cases tail with
    | nil => intro pos p h; cases h
    | cons b rest =>
      intro pos p h
      rw [adjPairs] at h
      cases pos with
      | zero =>
        rw [List.get?_cons_zero] at h
        have hp := Option.some.inj h
        rw [← hp]
        exact ⟨rfl, rfl⟩
      | succ n =>
        rw [List.get?_cons_succ] at h
        rw [List.get?_cons_succ, List.get?_cons_succ]
        exact ih n p h

theorem list_decomp_two {α : Type} :
    ∀ (l : List α) (i : Nat) (a b : α), l.get? i = some a → l.get? (i + 1) = some b →
      l = l.take i ++ a :: b :: l.drop (i + 2) := by
  intro l
  induction l with
  | nil => intro i a b h; cases h
  | cons x xs ih =>
    intro i a b h1 h2
    cases i with
    | zero =>
      rw [List.get?_cons_zero] at h1
      rw [List.get?_cons_succ] at h2
      cases xs with
      | nil => cases h2
      | cons y ys =>
        rw [List.get?_cons_zero] at h2
        rw [← Option.some.inj h1, ← Option.some.inj h2]
        rfl
    | succ n =>
      rw [List.get?_cons_succ] at h1
      rw [List.get?_cons_succ] at h2
      have hd := ih n a b h1 h2
      have ha : n + 1 + 2 = n + 2 + 1 := by omega
      rw [ha, List.take_succ_cons, List.drop_succ_cons]
      exact congrArg (List.cons x) hd

theorem flatten_merge_eq {α : Type} (pre post : List (List α)) (a b : List α) :
    (pre ++ [a ++ b] ++ post).flatten = (pre ++ a :: b :: post).flatten := by
  simp [List.append_assoc]

theorem flatten_map_singleton (w : Str) :
    (w.map (fun c => ([c] : Str))).flatten = w := by
  induction w with
  | nil => rfl
  | cons c cs ih => simp [ih]

theorem map_id_of_eq {α : Type} (f : α → α) :
    ∀ (l : List α), (∀ x ∈ l, f x = x) → l.map f = l := by
  intro l
  induction l with
  | nil => intro _; rfl
  | cons x xs ih =>
    intro h
    rw [List.map_cons, h x (List.mem_cons_self _ _),
      ih (fun y hy => h y (List.mem_cons_of_mem _ hy))]

/-- Invariant of `_tokenize_word`'s merge loop: the token list keeps the
shape `body ++ [endWord]`, the body always flattens back to the original
word, and body tokens stay nonempty, `'<'`-free and in the vocabulary. -/
theorem tokenizeLoop_body_inv (tk : Tokenizer) (hr : ranksOk tk) :
    ∀ (fuel : Nat) (body : List Str),
      (∀ t ∈ body, t ≠ [] ∧ '<' ∉ t ∧ containsA tk.vocab t = true) →
      ∃ body', tokenizeLoop tk.pair_ranks fuel (body ++ [endWord]) = body' ++ [endWord] ∧
        body'.flatten = body.flatten ∧
        (∀ t ∈ body', t ≠ [] ∧ '<' ∉ t ∧ containsA tk.vocab t = true) := by
  intro fuel
  induction fuel with
  | zero =>
    intro body hb
    exact ⟨body, rfl, rfl, hb⟩
  | succ fuel ih =>
    intro body hb
    rw [tokenizeLoop]
    cases hmin : minByRank (rankedList tk.pair_ranks (body ++ [endWord])) with
    | none => exact ⟨body, rfl, rfl, hb⟩
    | some x =>
      obtain ⟨r, pos, p⟩ := x
      obtain ⟨hget, hlook⟩ := minByRank_get tk.pair_ranks (body ++ [endWord]) r pos p hmin
      obtain ⟨hcv, hp1, hp2⟩ := hr p (by rw [hlook]; rfl)
      obtain ⟨hg1, hg2⟩ := adjPairs_get (body ++ [endWord]) pos p hget
      have hlt : pos + 1 < body.length := by
        by_contra hge
        push_neg at hge
        rcases Nat.lt_or_ge (pos + 1) (body ++ [endWord]).length with hlt2 | hge2
        · have hlen : (body ++ [endWord]).length = body.length + 1 := by simp
          have heq : pos + 1 = body.length := by omega
          have hev : (body ++ [endWord]).get? (pos + 1) = some endWord := by
            rw [heq, List.get?_append_right (le_refl _)]
            simp
          rw [hev] at hg2
          exact hp2 (Option.some.inj hg2).symm
        · rw [List.get?_eq_none.mpr hge2] at hg2
          cases hg2
      have hg1' : body.get? pos = some p.1 := by
        rw [List.get?_append (by omega : pos < body.length)] at hg1
        exact hg1
      have hg2' : body.get? (pos + 1) = some p.2 := by
        rw [List.get?_append hlt] at hg2
        exact hg2
      have hdecomp := list_decomp_two body pos p.1 p.2 hg1' hg2'
      have harr : (body ++ [endWord]).take pos ++ [p.1 ++ p.2]
            ++ (body ++ [endWord]).drop (pos + 2)
          = (body.take pos ++ [p.1 ++ p.2] ++ body.drop (pos + 2)) ++ [endWord] := by
        rw [List.take_append_of_le_length (by omega : pos ≤ body.length)]
        rw [List.drop_append_of_le_length (by omega : pos + 2 ≤ body.length)]
        simp [List.append_assoc]
      have hp1mem : p.1 ∈ body := List.get?_mem hg1'
      have hp2mem : p.2 ∈ body := List.get?_mem hg2'
      have hb2 : ∀ t ∈ body.take pos ++ [p.1 ++ p.2] ++ body.drop (pos + 2),
          t ≠ [] ∧ '<' ∉ t ∧ containsA tk.vocab t = true := by
        intro t ht
        rcases List.mem_append.mp ht with ht2 | ht2
        · rcases List.mem_append.mp ht2 with ht3 | ht3
          · exact hb t (List.take_subset _ _ ht3)
          · have hteq : t = p.1 ++ p.2 := List.mem_singleton.mp ht3
            subst hteq
            obtain ⟨hne1, hlt1, -⟩ := hb p.1 hp1mem
            obtain ⟨-, hlt2, -⟩ := hb p.2 hp2mem
            refine ⟨?_, ?_, hcv⟩
            · intro he
              exact hne1 (List.append_eq_nil.mp he).1
            · intro hcm
              rcases List.mem_append.mp hcm with hcm2 | hcm2
              · exact hlt1 hcm2
              · exact hlt2 hcm2
        · exact hb t (List.drop_subset _ _ ht2)
      obtain ⟨body', heq, hfl, hb'⟩ := ih _ hb2
      refine ⟨body', ?_, ?_, hb'⟩
      · show tokenizeLoop tk.pair_ranks fuel
          ((body ++ [endWord]).take pos ++ [p.1 ++ p.2]
            ++ (body ++ [endWord]).drop (pos + 2)) = body' ++ [endWord]
        rw [harr]
        exact heq
      · rw [hfl, flatten_merge_eq, ← hdecomp]

theorem tokenizeWord_body (tk : Tokenizer) (hr : ranksOk tk) (w : Str)
    (hw : ∀ c ∈ w, c ≠ '<' ∧ containsA tk.vocab [c] = true) :
    ∃ body, tokenizeWord tk w = body ++ [endWord] ∧ body.flatten = w ∧
      ∀ t ∈ body, t ≠ [] ∧ '<' ∉ t ∧ containsA tk.vocab t = true := by
  have hb0 : ∀ t ∈ w.map (fun c => ([c] : Str)),
      t ≠ [] ∧ '<' ∉ t ∧ containsA tk.vocab t = true := by
    intro t ht
    obtain ⟨c, hc, hct⟩ := List.mem_map.mp ht
    obtain ⟨hc1, hc2⟩ := hw c hc
    subst hct
    refine ⟨by simp, ?_, hc2⟩
    intro hm
    rw [List.mem_singleton] at hm
    exact hc1 hm.symm
  by_cases hm : tk.merges = []
  · refine ⟨w.map (fun c => ([c] : Str)), ?_, flatten_map_singleton w, hb0⟩
    simp only [tokenizeWord]
    rw [if_pos hm]
  · obtain ⟨body', heq, hfl, hb'⟩ := tokenizeLoop_body_inv tk hr
      (w.map (fun c => ([c] : Str)) ++ [endWord]).length (w.map (fun c => ([c] : Str))) hb0
    refine ⟨body', ?_, ?_, hb'⟩
    · simp only [tokenizeWord]
      rw [if_neg hm]
      exact heq
    · rw [hfl]
      exact flatten_map_singleton w

/-! ### Phase E: assembling encode then decode -/

theorem foldr_ids_known (tk : Tokenizer) :
    ∀ ts : List Str, (∀ t ∈ ts, containsA tk.vocab t = true) →
      ts.foldr (fun tok acc =>
        match lookupA tk.vocab tok with
        | some i => i :: acc
        | none =>
          (tok.map fun c => (lookupA tk.vocab [c]).getD (specialId unkS)) ++ acc) []
      = ts.map (fun t => (lookupA tk.vocab t).getD 0) := by
  intro ts
  induction ts with
  | nil => intro _; rfl
  | cons t ts ih =>
    intro h
    rw [List.foldr_cons, List.map_cons,
      ih (fun u hu => h u (List.mem_cons_of_mem _ hu))]
    have hc := h t (List.mem_cons_self _ _)
    rw [containsA] at hc
    cases hl : lookupA tk.vocab t with
    | none => rw [hl] at hc; cases hc
    | some i => rfl

theorem encodeWordIds_known (tk : Tokenizer) (w : Str)
    (h : ∀ t ∈ tokenizeWord tk w, containsA tk.vocab t = true) :
    encodeWordIds tk w
      = (tokenizeWord tk w).map (fun t => (lookupA tk.vocab t).getD 0) := by
  rw [encodeWordIds]
  exact foldr_ids_known tk (tokenizeWord tk w) h

/-- Decoding the id of each fully-known token reproduces the token texts,
with the end-of-word marker rendered as a single space, and never trips the
end-of-text stop. -/
theorem decodeOut_mapped (tk : Tokenizer) (hs : vocabShape tk) :
    ∀ ts : List Str,
      (∀ t ∈ ts, containsA tk.vocab t = true ∧ t ≠ [] ∧ ('<' ∉ t ∨ t = endWord)) →
      decodeOut tk (ts.map (fun t => (lookupA tk.vocab t).getD 0))
        = ts.map (fun t => if t = endWord then [' '] else t) ∧
      stopsB tk (ts.map (fun t => (lookupA tk.vocab t).getD 0)) = false := by
  intro ts
  induction ts with
  | nil => intro _; exact ⟨rfl, rfl⟩
  | cons t ts ih =>
    intro h
    obtain ⟨hcv, hne, hsh⟩ := h t (List.mem_cons_self _ _)
    obtain ⟨ihd, ihs⟩ := ih (fun u hu => h u (List.mem_cons_of_mem _ hu))
    rw [containsA] at hcv
    cases hl : lookupA tk.vocab t with
    | none => rw [hl] at hcv; cases hcv
    | some i =>
      have hsp : lookupA specialTokens t = none := by
        rcases hsh with hlt | hewt
        · exact no_lt_specials_none t hlt
        · rw [hewt]; exact endWord_specials_none
      obtain ⟨hid, hi6⟩ := idToToken_learned tk hs t i hsp hl
      have hgd : (lookupA tk.vocab t).getD 0 = i := by rw [hl]; rfl
      have htok : (idToToken tk i).getD unkS = t := by rw [hid]; rfl
      rw [List.map_cons, List.map_cons, hgd]
      by_cases hewt : t = endWord
      · have h1 : ¬((idToToken tk i).getD unkS = startoftextS ∨
            (idToToken tk i).getD unkS = paddingS ∨
            (idToToken tk i).getD unkS = maskS) := by
          rw [htok, hewt]; decide
        have h2 : (idToToken tk i).getD unkS ≠ endoftextS := by
          rw [htok, hewt]; decide
        have h3 : (idToToken tk i).getD unkS = endWord := by
          rw [htok, hewt]
        rw [decodeOut_cons_ew tk i _ h1 h2 h3, stopsB_cons_other tk i _ h1 h2,
          if_pos hewt, ihd, ihs]
        exact ⟨rfl, rfl⟩
      · have hlt : '<' ∉ t := by
          rcases hsh with hlt | hewt2
          · exact hlt
          · exact absurd hewt2 hewt
        have h1 : ¬((idToToken tk i).getD unkS = startoftextS ∨
            (idToToken tk i).getD unkS = paddingS ∨
            (idToToken tk i).getD unkS = maskS) := by
          rw [htok]
          rintro (he | he | he) <;> exact hlt (by rw [he]; decide)
        have h2 : (idToToken tk i).getD unkS ≠ endoftextS := by
          rw [htok]
          intro he
          exact hlt (by rw [he]; decide)
        have h3 : (idToToken tk i).getD unkS ≠ endWord := by
          rw [htok]
          intro he
          exact hlt (by rw [he]; decide)
        have h4 : ("<|".data.isPrefixOf ((idToToken tk i).getD unkS) &&
            "|>".data.isSuffixOf ((idToToken tk i).getD unkS)) = false := by
          rw [htok]
          cases t with
          | nil => exact absurd rfl hne
          | cons c cs =>
            have hc : ¬(c = '<') := by
              intro he
              exact hlt (by rw [← he]; exact List.mem_cons_self _ _)
            have hbeq : ('<' == c) = false := by
              cases hbe : ('<' == c) with
              | false => rfl
              | true => exact absurd (eq_of_beq hbe).symm hc
            have hdata : "<|".data = (['<', '|'] : Str) := rfl
            rw [hdata]
            have hpre : (['<', '|'] : Str).isPrefixOf (c :: cs) = false := by
              show ('<' == c && (['|'] : Str).isPrefixOf cs) = false
              rw [hbeq, Bool.false_and]
            rw [hpre, Bool.false_and]
        rw [decodeOut_cons_lit tk i _ h1 h2 h3 h4, stopsB_cons_other tk i _ h1 h2,
          if_neg hewt, htok, ihd, ihs]
        exact ⟨rfl, rfl⟩

theorem stopsB_append (tk : Tokenizer) (xs ys : List Nat) :
    stopsB tk (xs ++ ys) = (stopsB tk xs || stopsB tk ys) := by
  induction xs with
  | nil => rw [List.nil_append]; rfl
  | cons tid rest ih =>
    rw [List.cons_append]
    by_cases h1 : (idToToken tk tid).getD unkS = startoftextS ∨
        (idToToken tk tid).getD unkS = paddingS ∨ (idToToken tk tid).getD unkS = maskS
    · rw [stopsB_cons_skip tk tid _ h1, stopsB_cons_skip tk tid _ h1, ih]
    · by_cases h2 : (idToToken tk tid).getD unkS = endoftextS
      · rw [stopsB_cons_eot tk tid _ h1 h2, stopsB_cons_eot tk tid _ h1 h2]
        rfl
      · rw [stopsB_cons_other tk tid _ h1 h2, stopsB_cons_other tk tid _ h1 h2, ih]

theorem decodeOut_append_nostop (tk : Tokenizer) (xs ys : List Nat)
    (h : stopsB tk xs = false) :
    decodeOut tk (xs ++ ys) = decodeOut tk xs ++ decodeOut tk ys := by
  rw [decodeOut_append, h, if_neg (fun hc => nomatch hc)]

/-- One word's encoded ids decode to the word followed by one space. -/
theorem decode_body_word (tk : Tokenizer) (hs : vocabShape tk) (hr : ranksOk tk)
    (hew : containsA tk.vocab endWord = true) (w : Str)
    (hw : ∀ c ∈ w, c ≠ '<' ∧ containsA tk.vocab [c] = true) :
    (decodeOut tk (encodeWordIds tk w)).flatten = w ++ [' '] ∧
    stopsB tk (encodeWordIds tk w) = false := by
  obtain ⟨body, hbw, hfl, hb⟩ := tokenizeWord_body tk hr w hw
  have hts : ∀ t ∈ tokenizeWord tk w,
      containsA tk.vocab t = true ∧ t ≠ [] ∧ ('<' ∉ t ∨ t = endWord) := by
    intro t ht
    rw [hbw] at ht
    rcases List.mem_append.mp ht with h | h
    · obtain ⟨h1, h2, h3⟩ := hb t h
      exact ⟨h3, h1, Or.inl h2⟩
    · rw [List.mem_singleton] at h
      subst h
      exact ⟨hew, by decide, Or.inr rfl⟩
  rw [encodeWordIds_known tk w (fun t ht => (hts t ht).1)]
  obtain ⟨hd, hst⟩ := decodeOut_mapped tk hs (tokenizeWord tk w) hts
  refine ⟨?_, hst⟩
  have hmap : body.map (fun t => if t = endWord then ([' '] : Str) else t) = body := by
    apply map_id_of_eq
    intro t ht
    refine if_neg ?_
    intro he
    exact (hb t ht).2.1 (by rw [he]; decide)
  have hewmap : ([endWord] : List Str).map
      (fun t => if t = endWord then ([' '] : Str) else t) = [[' ']] := by
    simp
  rw [hd, hbw, List.map_append, hmap, hewmap, List.flatten_append, hfl]
  rfl

/-- The concatenated per-word id blocks decode to the words joined by
single spaces. -/
theorem decode_body_words (tk : Tokenizer) (hs : vocabShape tk) (hr : ranksOk tk)
    (hew : containsA tk.vocab endWord = true) :
    ∀ ws : List Str, (∀ w ∈ ws, ∀ c ∈ w, c ≠ '<' ∧ containsA tk.vocab [c] = true) →
      (decodeOut tk ((ws.map (encodeWordIds tk)).flatten)).flatten = wordsJoin ws ∧
      stopsB tk ((ws.map (encodeWordIds tk)).flatten) = false := by
  intro ws
  induction ws with
  | nil => intro _; exact ⟨rfl, rfl⟩
  | cons w ws ih =>
    intro h
    obtain ⟨ihd, ihs⟩ := ih (fun u hu c hc => h u (List.mem_cons_of_mem _ hu) c hc)
    obtain ⟨hd1, hs1⟩ := decode_body_word tk hs hr hew w (h w (List.mem_cons_self _ _))
    rw [List.map_cons, List.flatten_cons]
    rw [decodeOut_append_nostop tk _ _ hs1, stopsB_append, hs1, ihs]
    refine ⟨?_, rfl⟩
    rw [List.flatten_append, hd1, ihd, wordsJoin_cons]

/-- Round trip for any tokenizer state satisfying the trained-state
invariants, on text whose cleaned non-space characters are `'<'`-free and
covered by the vocabulary. -/
theorem decode_encode_of_inv (tk : Tokenizer) (hs : vocabShape tk) (hr : ranksOk tk)
    (hew : containsA tk.vocab endWord = true) (text : Str)
    (hcov2 : ∀ c ∈ processClean text, pyIsSpace c = false →
      c ≠ '<' ∧ containsA tk.vocab [c] = true) :
    decode tk (encode tk text true) = processClean text := by
  by_cases hpt : processClean text = []
  · rw [encode, if_pos hpt, hpt]
    rfl
  · rw [encode, if_neg hpt]
    have hwords : ∀ w ∈ pySplit (processClean text), ∀ c ∈ w,
        c ≠ '<' ∧ containsA tk.vocab [c] = true := by
      intro w hw c hc
      obtain ⟨hwne, hcf⟩ := pySplitAux_words (processClean text) []
        (fun d hd => absurd hd (List.not_mem_nil d)) w hw
      obtain ⟨hcsp, hcmem⟩ := hcf c hc
      rcases hcmem with hcm | hcm
      · exact hcov2 c hcm hcsp
      · exact absurd hcm (List.not_mem_nil c)
    obtain ⟨hdec, hstop⟩ := decode_body_words tk hs hr hew
      (pySplit (processClean text)) hwords
    rw [decode]
    show pyStrip (decodeOut tk ([1]
      ++ ((pySplit (processClean text)).map (encodeWordIds tk)).flatten
      ++ [2])).flatten = processClean text
    have h1skip : (idToToken tk 1).getD unkS = startoftextS := rfl
    have h2skip : (idToToken tk 2).getD unkS = paddingS := rfl
    rw [List.append_assoc, List.singleton_append,
      decodeOut_cons_skip tk 1 _ (Or.inl h1skip),
      decodeOut_append_nostop tk _ _ hstop]
    have hdec2 : decodeOut tk [2] = [] := by
      rw [decodeOut_cons_skip tk 2 [] (Or.inr (Or.inl h2skip))]
      rfl
    rw [hdec2, List.append_nil, hdec]
    exact wordsJoin_pySplit_clean (stripDigits (stripURLs text))

/-- C1 (corrected): for a tokenizer trained on a corpus whose cleaned form
has no `'<'`, `decode (encode text true)` returns exactly the cleaned text
whenever every non-space character of the cleaned text occurs in the
cleaned corpus; without that coverage the round trip can lose characters
(see the counterexample), so the claim as stated is false. -/
theorem C1_round_trip (vs mf : Nat) (corpus text : Str)
    (hlt : '<' ∉ processClean corpus)
    (hcov : ∀ c ∈ processClean text, pyIsSpace c = false → c ∈ processClean corpus) :
    decode (train (Tokenizer.init vs mf) corpus)
      (encode (train (Tokenizer.init vs mf) corpus) text true)
      = processClean text := by
  by_cases hpt : processClean text = []
  · rw [encode, if_pos hpt, hpt]
    rfl
  · obtain ⟨c0, cs0, hc0⟩ : ∃ c cs, processClean text = c :: cs := by
      cases hpc : processClean text with
      | nil => exact absurd hpc hpt
      | cons c cs => exact ⟨c, cs, rfl⟩
    have hc0sp : pyIsSpace c0 = false := pyStrip_head_not_space _ c0 cs0 hc0
    have hc0mem : c0 ∈ processClean corpus :=
      hcov c0 (by rw [hc0]; exact List.mem_cons_self _ _) hc0sp
    have hpcc : ¬(processClean corpus = []) := by
      intro h
      rw [h] at hc0mem
      exact absurd hc0mem (List.not_mem_nil c0)
    have hcne : ¬(corpus = []) := by
      intro h
      rw [h] at hpcc
      exact hpcc rfl
    obtain ⟨hshape, hranks, hewv, hcover⟩ := train_inv vs mf corpus hcne hpcc
    refine decode_encode_of_inv _ hshape hranks hewv text ?_
    intro c hc hsp
    have hcm : c ∈ processClean corpus := hcov c hc hsp
    refine ⟨?_, hcover c hcm hsp⟩
    intro he
    rw [he] at hcm
    exact hlt hcm

/-- C1 counterexample: `tkAB` is a trained tokenizer, yet decoding the
encoding of `"c"` yields the empty string, not the cleaned input `"c"`: the
round trip does not reproduce the cleaned text in general. -/
theorem C1_counterexample :
    decode tkAB (encode tkAB "c".data true) = [] ∧
    processClean "c".data = "c".data ∧ ([] : Str) ≠ "c".data :=
  ⟨by decide, by decide, by decide⟩

/-- Witness for C1 on the tokenizer trained on `"ab ab"` and the text
`"ab a"`, whose characters the corpus covers. -/
theorem C1_witness :
    '<' ∉ processClean "ab ab".data ∧
    decode (train (Tokenizer.init 1000 2) "ab ab".data)
      (encode (train (Tokenizer.init 1000 2) "ab ab".data) "ab a".data true)
      = processClean "ab a".data :=
  ⟨by decide, C1_round_trip 1000 2 "ab ab".data "ab a".data (by decide) (by decide)⟩

end Tok
